import Mathlib

/-!
Verification development for the HydroAI watershed-delineation core.

The repository's own code (`src/hydroai/watershed/pysheds_wrapper.py`,
`delineator.py`) is a thin stateful wrapper around the external `pysheds`
library: the terrain algorithms themselves (DEM conditioning, D8 routing,
flow accumulation, catchment extraction) are not part of the repository
sources.  Following the specification (spec.md sections 3-4 and 6), those
missing algorithmic parts are modelled here from the spec's words; the parts
that do live in the repository (the engine's shared mutable state, the
vectorization filtering, the final GeoDataFrame assembly and the statistics
calculator) are embedded directly from the Python source.

Elevations are modelled as exact rationals (the source uses floating-point
numpy arrays; the spec's invariants are order-theoretic, so exact arithmetic
is the faithful shallow embedding).  A raster grid of height `h` and width
`w` is a function from cells to `Option ℚ`, with `none` as the nodata
sentinel ("nodata cells are excluded from all downstream computation").
-/

set_option autoImplicit false
set_option linter.unnecessarySimpa false
set_option linter.unusedVariables false

namespace HydroAI

/-- A cell of an `h × w` raster: (row, column). -/
abbrev Cell (h w : ℕ) := Fin h × Fin w

/-- A raster grid: elevation per cell, `none` marking nodata. -/
def Grid (h w : ℕ) := Cell h w → Option ℚ

instance {h w : ℕ} : DecidableEq (Grid h w) :=
  fun g₁ g₂ => Fintype.decidablePiFintype g₁ g₂

/-- Elevation value of a cell, defaulting to `0` on nodata (the default is
never read by the algorithms: nodata cells are excluded everywhere). -/
def zval {h w : ℕ} (g : Grid h w) (c : Cell h w) : ℚ := (g c).getD 0

/-- A cell is valid when it is not nodata. -/
def valid {h w : ℕ} (g : Grid h w) (c : Cell h w) : Prop := g c ≠ none

instance {h w : ℕ} (g : Grid h w) (c : Cell h w) : Decidable (valid g c) := by
  unfold valid; infer_instance

/-- The 8 D8 neighbor offsets as (row change, column change). -/
def offsets : List (ℤ × ℤ) :=
  [(0, 1), (1, 0), (0, -1), (-1, 0), (1, 1), (1, -1), (-1, -1), (-1, 1)]

/-- Shift a cell by an integer offset, `none` when the target leaves the
raster. -/
def shift {h w : ℕ} (c : Cell h w) (o : ℤ × ℤ) : Option (Cell h w) :=
  let r : ℤ := (c.1 : ℤ) + o.1
  let q : ℤ := (c.2 : ℤ) + o.2
  if hr : 0 ≤ r ∧ r < h ∧ 0 ≤ q ∧ q < w then
    some (⟨r.toNat, by omega⟩, ⟨q.toNat, by omega⟩)
  else
    none

/-- The in-raster cells among the 8 neighbors of `c`. -/
def nbrCells {h w : ℕ} (c : Cell h w) : List (Cell h w) :=
  offsets.filterMap (shift c)

/-- The valid (non-nodata) in-raster neighbors of `c`. -/
def validNbrs {h w : ℕ} (g : Grid h w) (c : Cell h w) : List (Cell h w) :=
  (nbrCells c).filter (fun t => (g t).isSome)

/-- A cell on the outermost ring of the raster. -/
def onEdge {h w : ℕ} (c : Cell h w) : Prop :=
  c.1.val = 0 ∨ c.1.val = h - 1 ∨ c.2.val = 0 ∨ c.2.val = w - 1

instance {h w : ℕ} (c : Cell h w) : Decidable (onEdge c) := by
  unfold onEdge; infer_instance

/-- Boundary cells of the drainage model: cells on the raster edge, or cells
8-adjacent to a nodata cell.  Modelled from the spec: priority-flood style
depression filling drains through the raster edge, and nodata regions are
excluded from computation, so flow reaching them leaves the grid. -/
def boundary {h w : ℕ} (g : Grid h w) (c : Cell h w) : Prop :=
  onEdge c ∨ ∃ t ∈ nbrCells c, g t = none

instance {h w : ℕ} (g : Grid h w) (c : Cell h w) : Decidable (boundary g c) := by
  unfold boundary; infer_instance

theorem mem_validNbrs {h w : ℕ} {g : Grid h w} {c t : Cell h w} :
    t ∈ validNbrs g c ↔ t ∈ nbrCells c ∧ valid g t := by
  unfold validNbrs valid
  simp [List.mem_filter, Option.isSome_iff_ne_none]

/-- Folded minimum of a list with an explicit default. -/
def minList {α : Type} [LinearOrder α] (l : List α) (d : α) : α :=
  l.foldr min d

/-- Folded maximum of a list with an explicit default. -/
def maxList {α : Type} [LinearOrder α] (l : List α) (d : α) : α :=
  l.foldr max d

theorem minList_le_default {α : Type} [LinearOrder α] (l : List α) (d : α) :
    minList l d ≤ d := by
  induction l with
  | nil => simp [minList]
  | cons a t ih => simpa [minList] using le_trans (min_le_right a _) ih

theorem minList_le_mem {α : Type} [LinearOrder α] {l : List α} {a : α} (d : α)
    (ha : a ∈ l) : minList l d ≤ a := by
  induction l with
  | nil => simp at ha
  | cons b t ih =>
    rcases List.mem_cons.mp ha with h | h
    · simpa [minList, h] using min_le_left b (minList t d)
    · exact le_trans (by simpa [minList] using min_le_right b (minList t d)) (ih h)

theorem minList_eq_default_or_mem {α : Type} [LinearOrder α] (l : List α) (d : α) :
    minList l d = d ∨ minList l d ∈ l := by
  induction l with
  | nil => left; simp [minList]
  | cons a t ih =>
    have hm : minList (a :: t) d = min a (minList t d) := rfl
    rcases le_total a (minList t d) with hle | hle
    · right
      rw [hm, min_eq_left hle]
      exact List.mem_cons_self a t
    · rw [hm, min_eq_right hle]
      rcases ih with h | h
      · left; exact h
      · right; exact List.mem_cons_of_mem a h

theorem le_maxList_of_mem {α : Type} [LinearOrder α] {l : List α} {a : α} (d : α)
    (ha : a ∈ l) : a ≤ maxList l d := by
  induction l with
  | nil => simp at ha
  | cons b t ih =>
    rcases List.mem_cons.mp ha with h | h
    · simpa [maxList, h] using le_max_left b (maxList t d)
    · exact le_trans (ih h) (by simpa [maxList] using le_max_right b (maxList t d))

theorem le_maxList_default {α : Type} [LinearOrder α] (l : List α) (d : α) :
    d ≤ maxList l d := by
  induction l with
  | nil => simp [maxList]
  | cons a t ih => exact le_trans ih (by simpa [maxList] using le_max_right a (maxList t d))

theorem minList_mono {α : Type} [LinearOrder α] {β : Type} (l : List β)
    (f₁ f₂ : β → α) (d : α) (hf : ∀ b ∈ l, f₁ b ≤ f₂ b) :
    minList (l.map f₁) d ≤ minList (l.map f₂) d := by
  induction l with
  | nil => simp
  | cons b t ih =>
    simp only [List.map_cons, minList, List.foldr_cons]
    exact min_le_min (hf b (List.mem_cons_self b t))
      (ih fun x hx => hf x (List.mem_cons_of_mem b hx))

theorem lt_minList {α : Type} [LinearOrder α] {l : List α} {d b : α}
    (hl : ∀ a ∈ l, b < a) (hd : b < d) : b < minList l d := by
  rcases minList_eq_default_or_mem l d with h | h
  · rw [h]; exact hd
  · exact hl _ h

theorem exists_mem_le_of_minList {α : Type} [LinearOrder α] {β : Type}
    {l : List β} {f : β → α} {d v : α}
    (hv : minList (l.map f) d = v) (hub : ∀ b ∈ l, f b ≤ d) (hne : l ≠ []) :
    ∃ b ∈ l, f b ≤ v := by
  rcases minList_eq_default_or_mem (l.map f) d with h | h
  · rcases List.exists_mem_of_ne_nil l hne with ⟨b, hb⟩
    refine ⟨b, hb, ?_⟩
    have h1 : minList (l.map f) d ≤ f b := minList_le_mem d (List.mem_map_of_mem f hb)
    calc f b ≤ d := hub b hb
    _ = minList (l.map f) d := h.symm
    _ = v := hv
  · rcases List.mem_map.mp h with ⟨b, hb, hfb⟩
    exact ⟨b, hb, by rw [hfb, hv]⟩

/-- Error taxonomy of the core (spec.md section 7).  The Python source
signals `EmptyCatchmentError` as `ValueError` with a message; the spec names
the tags, the source raises exceptions — the constructors here are the
spec's tags for the source's raise sites. -/
inductive Err where
  | inputError
  | degenerateTerrain
  | pourPointOutOfBounds
  | cyclicFlowGraph
  | emptyCatchment
  deriving DecidableEq, Repr

instance {ε α : Type} [DecidableEq ε] [DecidableEq α] : DecidableEq (Except ε α) :=
  fun x y =>
    match x, y with
    | .ok a, .ok b =>
      match decEq a b with
      | isTrue hab => isTrue (by rw [hab])
      | isFalse hab => isFalse (by intro hc; cases hc; exact hab rfl)
    | .error a, .error b =>
      match decEq a b with
      | isTrue hab => isTrue (by rw [hab])
      | isFalse hab => isFalse (by intro hc; cases hc; exact hab rfl)
    | .ok _, .error _ => isFalse (by intro hc; cases hc)
    | .error _, .ok _ => isFalse (by intro hc; cases hc)

/-! ### DEM Conditioner

Modelled from the spec (section 4.1): the conditioner is (a) single-cell pit
filling, then (b) priority-flood style depression filling, then (c) flat
resolution by a small enforced gradient, failing with
`DegenerateTerrainError` on terrain with no routable cells.  `pysheds`'
`fill_pits` / `fill_depressions` / `resolve_flats` (called by
`PySheksWrapper.preprocess_dem`) are external to the repository, so the spec
is the modelling authority here.  Convention taken from the priority-flood
literature the spec invokes: flow may exit through the raster edge and
through nodata regions, so `boundary` cells (edge cells and cells adjacent
to nodata) act as outlets and keep their elevation. -/

/-- All cells of the raster as a list. -/
def allCells (h w : ℕ) : List (Cell h w) :=
  (List.finRange h).flatMap (fun r => (List.finRange w).map (fun q => (r, q)))

theorem mem_allCells {h w : ℕ} (c : Cell h w) : c ∈ allCells h w := by
  unfold allCells
  rw [List.mem_flatMap]
  exact ⟨c.1, List.mem_finRange c.1, List.mem_map.mpr ⟨c.2, List.mem_finRange c.2, rfl⟩⟩

/-- Largest valid elevation of the grid (0 when no valid cells). -/
def maxval {h w : ℕ} (g : Grid h w) : ℚ :=
  maxList (((allCells h w).filter (fun c => (g c).isSome)).map (zval g)) 0

/-- A value strictly above every valid elevation, used to initialise the
descending flood iteration. -/
def topval {h w : ℕ} (g : Grid h w) : ℚ := maxval g + 1

/-- Fuel for the bounded iterations: the cell count of the raster. -/
def fuel (h w : ℕ) : ℕ := h * w

/-- Step (a) of conditioning, modelled from the spec: raise a cell strictly
below all 8 of its (valid) neighbors to the minimum neighbor elevation.
Boundary cells drain off the raster and are left alone. -/
def fillPits {h w : ℕ} (g : Grid h w) : Grid h w := fun c =>
  (g c).map (fun z =>
    if ¬ boundary g c ∧ validNbrs g c ≠ [] ∧
        z < minList ((validNbrs g c).map (zval g)) (topval g) then
      minList ((validNbrs g c).map (zval g)) (topval g)
    else z)

/-- Start of the flood iteration: boundary cells at their own elevation,
interior cells at `topval`. -/
def floodInit {h w : ℕ} (g : Grid h w) (c : Cell h w) : ℚ :=
  if valid g c ∧ ¬ boundary g c then topval g else zval g c

/-- One sweep of the descending flood iteration: an interior valid cell
drops to the spill level `max (own elevation) (min neighbor level)`. -/
def floodStep {h w : ℕ} (g : Grid h w) (prev : Cell h w → ℚ) (c : Cell h w) : ℚ :=
  if valid g c then
    if boundary g c then zval g c
    else max (zval g c) (minList ((validNbrs g c).map prev) (topval g))
  else 0

/-- The flood iteration after `i` sweeps. -/
def floodIter {h w : ℕ} (g : Grid h w) : ℕ → Cell h w → ℚ
  | 0 => floodInit g
  | i + 1 => floodStep g (floodIter g i)

/-- Step (b) of conditioning, modelled from the spec: priority-flood style
depression filling, computed as `fuel` sweeps of the descending spill-level
iteration (one sweep per cell suffices for every spill path). -/
def fillDepressions {h w : ℕ} (g : Grid h w) : Grid h w := fun c =>
  (g c).map (fun _ => floodIter g (fuel h w) c)

/-- Outlet condition of the flat-resolution gradient: a cell that is a
boundary cell or has a strictly lower valid neighbor already drains. -/
def flatOutlet {h w : ℕ} (g : Grid h w) (c : Cell h w) : Prop :=
  boundary g c ∨ ∃ n ∈ validNbrs g c, zval g n < zval g c

instance {h w : ℕ} (g : Grid h w) (c : Cell h w) : Decidable (flatOutlet g c) := by
  unfold flatOutlet; infer_instance

/-- The equal-elevation valid neighbors of a cell. -/
def equalNbrs {h w : ℕ} (g : Grid h w) (c : Cell h w) : List (Cell h w) :=
  (validNbrs g c).filter (fun n => zval g n == zval g c)

/-- Distance-to-outlet iteration across flats: outlet cells are at 0,
other cells take one more than the least distance among equal-elevation
neighbors.  `fuel h w + 1` is the unreachable sentinel. -/
def flatDistStep {h w : ℕ} (g : Grid h w) (prev : Cell h w → ℕ) (c : Cell h w) : ℕ :=
  if flatOutlet g c then 0
  else min (prev c) (1 + minList ((equalNbrs g c).map prev) (fuel h w + 1))

/-- The flat-distance iteration after `i` sweeps. -/
def flatDist {h w : ℕ} (g : Grid h w) : ℕ → Cell h w → ℕ
  | 0 => fun c => if flatOutlet g c then 0 else fuel h w + 1
  | i + 1 => flatDistStep g (flatDist g i)

/-- The multiset of valid elevations of the grid, as a list. -/
def gridVals {h w : ℕ} (g : Grid h w) : List ℚ :=
  ((allCells h w).filter (fun c => (g c).isSome)).map (zval g)

/-- Smallest positive difference between two valid elevations of the grid
(1 when there is none). -/
def minGap {h w : ℕ} (g : Grid h w) : ℚ :=
  minList (((gridVals g).flatMap
    (fun a => (gridVals g).map (fun b => b - a))).filter (fun q => 0 < q)) 1

/-- The enforced-gradient increment: small enough that `fuel` increments
never reach the next distinct elevation level. -/
def epsval {h w : ℕ} (g : Grid h w) : ℚ := minGap g / (fuel h w + 1)

/-- Step (c) of conditioning, modelled from the spec: impose a small
monotone gradient across flats by raising each cell by the gradient
increment times its (capped) distance to the nearest outlet. -/
def resolveFlats {h w : ℕ} (g : Grid h w) : Grid h w := fun c =>
  (g c).map (fun z => z + epsval g * (min (flatDist g (fuel h w) c) (fuel h w) : ℕ))

/-- Degenerate terrain per the spec: no valid cells at all, or the whole
valid area is one flat with no boundary outlet. -/
def degenerate {h w : ℕ} (g : Grid h w) : Prop :=
  (¬ ∃ c, valid g c) ∨
    ((∀ c₁ c₂, valid g c₁ → valid g c₂ → zval g c₁ = zval g c₂) ∧
      ¬ ∃ c, valid g c ∧ boundary g c)

instance {h w : ℕ} (g : Grid h w) : Decidable (degenerate g) := by
  unfold degenerate; infer_instance

/-- The conditioning operation (`condition` of the spec's interface,
realised in the repository by `PySheksWrapper.preprocess_dem`): pit
filling, then depression filling, then flat resolution. -/
def condition {h w : ℕ} (g : Grid h w) : Except Err (Grid h w) :=
  if degenerate g then .error .degenerateTerrain
  else .ok (resolveFlats (fillDepressions (fillPits g)))

/-! ### Structural lemmas: validity patterns, boundary, neighbors -/

theorem zval_invalid {h w : ℕ} {g : Grid h w} {c : Cell h w} (hv : ¬ valid g c) :
    zval g c = 0 := by
  have hnone : g c = none := not_not.mp hv
  unfold zval
  rw [hnone]
  rfl

theorem zval_le_maxval {h w : ℕ} {g : Grid h w} {c : Cell h w} (hv : valid g c) :
    zval g c ≤ maxval g := by
  unfold maxval
  refine le_maxList_of_mem 0 (List.mem_map.mpr ⟨c, ?_, rfl⟩)
  refine List.mem_filter.mpr ⟨mem_allCells c, ?_⟩
  unfold valid at hv
  simpa [Option.isSome_iff_ne_none] using hv

theorem maxval_nonneg {h w : ℕ} (g : Grid h w) : (0 : ℚ) ≤ maxval g := by
  have := le_maxList_default (((allCells h w).filter (fun c => (g c).isSome)).map (zval g)) (0 : ℚ)
  simpa [maxval] using this

theorem zval_lt_topval {h w : ℕ} {g : Grid h w} {c : Cell h w} (hv : valid g c) :
    zval g c < topval g := by
  have := zval_le_maxval hv
  unfold topval
  linarith

theorem pattern_fillPits {h w : ℕ} (g : Grid h w) (c : Cell h w) :
    fillPits g c = none ↔ g c = none := by
  unfold fillPits
  exact Option.map_eq_none'

theorem pattern_fillDepressions {h w : ℕ} (g : Grid h w) (c : Cell h w) :
    fillDepressions g c = none ↔ g c = none := by
  unfold fillDepressions
  exact Option.map_eq_none'

theorem pattern_resolveFlats {h w : ℕ} (g : Grid h w) (c : Cell h w) :
    resolveFlats g c = none ↔ g c = none := by
  unfold resolveFlats
  exact Option.map_eq_none'

theorem valid_iff_of_pattern {h w : ℕ} {g₁ g₂ : Grid h w}
    (hp : ∀ t, g₁ t = none ↔ g₂ t = none) (c : Cell h w) :
    valid g₁ c ↔ valid g₂ c := by
  unfold valid
  exact not_congr (hp c)

theorem validNbrs_eq_of_pattern {h w : ℕ} {g₁ g₂ : Grid h w}
    (hp : ∀ t, g₁ t = none ↔ g₂ t = none) (c : Cell h w) :
    validNbrs g₁ c = validNbrs g₂ c := by
  unfold validNbrs
  refine List.filter_congr ?_
  intro t _
  have := hp t
  rcases h1 : g₁ t with _ | z₁ <;> rcases h2 : g₂ t with _ | z₂ <;> simp_all

theorem boundary_iff_of_pattern {h w : ℕ} {g₁ g₂ : Grid h w}
    (hp : ∀ t, g₁ t = none ↔ g₂ t = none) (c : Cell h w) :
    boundary g₁ c ↔ boundary g₂ c := by
  unfold boundary
  exact or_congr Iff.rfl (exists_congr fun t => and_congr Iff.rfl (hp t))

/-- Interior (non-boundary) valid cells always have their upward neighbor
inside the raster and valid. -/
theorem up_validNbr {h w : ℕ} {g : Grid h w} {c : Cell h w}
    (hb : ¬ boundary g c) :
    ∃ u ∈ validNbrs g c, u.1.val + 1 = c.1.val := by
  have hedge : ¬ onEdge c := fun he => hb (Or.inl he)
  have hr0 : c.1.val ≠ 0 := fun hc => hedge (Or.inl hc)
  have hshift : shift c ((-1 : ℤ), (0 : ℤ)) =
      some (⟨c.1.val - 1, by omega⟩, c.2) := by
    unfold shift
    have hc1 : (0 : ℤ) ≤ (c.1 : ℤ) + (-1) := by
      have := c.1.isLt
      omega
    rw [dif_pos]
    · congr 1
      refine Prod.ext ?_ ?_
      · apply Fin.ext
        simp only
        omega
      · apply Fin.ext
        simp only
        omega
    · refine ⟨hc1, ?_, ?_, ?_⟩
      · have := c.1.isLt; omega
      · have := c.2.isLt; omega
      · have := c.2.isLt; omega
  set u : Cell h w := (⟨c.1.val - 1, by have := c.1.isLt; omega⟩, c.2) with hu
  have hmem : u ∈ nbrCells c := by
    unfold nbrCells
    refine List.mem_filterMap.mpr ⟨((-1 : ℤ), (0 : ℤ)), ?_, hshift⟩
    unfold offsets
    simp
  have hvalid : valid g u := by
    by_contra hnv
    exact hb (Or.inr ⟨u, hmem, by unfold valid at hnv; simpa using hnv⟩)
  exact ⟨u, mem_validNbrs.mpr ⟨hmem, hvalid⟩, by simp [hu]; omega⟩

theorem validNbrs_ne_nil {h w : ℕ} {g : Grid h w} {c : Cell h w}
    (hb : ¬ boundary g c) : validNbrs g c ≠ [] := by
  rcases up_validNbr hb with ⟨u, hu, _⟩
  exact fun hnil => by rw [hnil] at hu; exact List.not_mem_nil u hu

theorem valid_of_mem_validNbrs {h w : ℕ} {g : Grid h w} {c t : Cell h w}
    (ht : t ∈ validNbrs g c) : valid g t := (mem_validNbrs.mp ht).2

/-! ### Flood-iteration lemmas (depression filling) -/

theorem floodIter_invalid {h w : ℕ} {g : Grid h w} {c : Cell h w}
    (hv : ¬ valid g c) : ∀ i, floodIter g i c = zval g c := by
  intro i
  cases i with
  | zero =>
    unfold floodIter floodInit
    rw [if_neg]
    exact fun hc => hv hc.1
  | succ i =>
    show floodStep g (floodIter g i) c = zval g c
    unfold floodStep
    rw [if_neg hv, zval_invalid hv]

theorem floodIter_boundary {h w : ℕ} {g : Grid h w} {c : Cell h w}
    (hv : valid g c) (hb : boundary g c) : ∀ i, floodIter g i c = zval g c := by
  intro i
  cases i with
  | zero =>
    unfold floodIter floodInit
    rw [if_neg]
    exact fun hc => hc.2 hb
  | succ i =>
    show floodStep g (floodIter g i) c = zval g c
    unfold floodStep
    rw [if_pos hv, if_pos hb]

theorem floodIter_le_top {h w : ℕ} (g : Grid h w) :
    ∀ i c, floodIter g i c ≤ topval g := by
  intro i c
  cases i with
  | zero =>
    unfold floodIter floodInit
    split
    · exact le_refl _
    · rename_i hc
      by_cases hv : valid g c
      · exact le_of_lt (zval_lt_topval hv)
      · rw [zval_invalid hv]
        have := maxval_nonneg g
        unfold topval
        linarith
  | succ i =>
    show floodStep g (floodIter g i) c ≤ topval g
    unfold floodStep
    split
    · split
      · exact le_of_lt (zval_lt_topval (by assumption))
      · exact max_le (le_of_lt (zval_lt_topval (by assumption)))
          (minList_le_default _ _)
    · have := maxval_nonneg g
      unfold topval
      linarith

theorem zval_le_floodIter {h w : ℕ} (g : Grid h w) :
    ∀ i c, zval g c ≤ floodIter g i c := by
  intro i c
  cases i with
  | zero =>
    unfold floodIter floodInit
    split
    · rename_i hc
      exact le_of_lt (zval_lt_topval hc.1)
    · exact le_refl _
  | succ i =>
    show zval g c ≤ floodStep g (floodIter g i) c
    unfold floodStep
    split
    · split
      · exact le_refl _
      · exact le_max_left _ _
    · rename_i hv
      rw [zval_invalid hv]

theorem floodStep_mono {h w : ℕ} (g : Grid h w) {W₁ W₂ : Cell h w → ℚ}
    (hW : ∀ t, W₁ t ≤ W₂ t) (c : Cell h w) :
    floodStep g W₁ c ≤ floodStep g W₂ c := by
  unfold floodStep
  split
  · split
    · exact le_refl _
    · exact max_le_max (le_refl _)
        (minList_mono _ _ _ _ (fun t _ => hW t))
  · exact le_refl _

theorem floodIter_succ_le {h w : ℕ} (g : Grid h w) :
    ∀ i c, floodIter g (i + 1) c ≤ floodIter g i c := by
  intro i
  induction i with
  | zero =>
    intro c
    show floodStep g (floodInit g) c ≤ floodInit g c
    unfold floodStep floodInit
    by_cases hv : valid g c
    · by_cases hb : boundary g c
      · rw [if_pos hv, if_pos hb, if_neg (fun hc => hc.2 hb)]
      · rw [if_pos hv, if_neg hb, if_pos ⟨hv, hb⟩]
        exact max_le (le_of_lt (zval_lt_topval hv)) (minList_le_default _ _)
    · rw [if_neg hv, if_neg (fun hc => hv hc.1), zval_invalid hv]
  | succ i ih =>
    intro c
    show floodStep g (floodIter g (i + 1)) c ≤ floodStep g (floodIter g i) c
    exact floodStep_mono g ih c

theorem floodIter_le_of_le {h w : ℕ} (g : Grid h w) {i j : ℕ} (hij : i ≤ j) :
    ∀ c, floodIter g j c ≤ floodIter g i c := by
  induction j with
  | zero =>
    intro c
    have : i = 0 := Nat.le_zero.mp hij
    rw [this]
  | succ j ih =>
    intro c
    rcases Nat.lt_or_ge i (j + 1) with hlt | hge
    · exact le_trans (floodIter_succ_le g j c) (ih (Nat.lt_succ_iff.mp hlt) c)
    · have : i = j + 1 := le_antisymm hij hge
      rw [this]

/-- The flood iteration never creates a pit: after any positive number of
sweeps, an interior valid cell is at least the minimum of its valid
neighbors. -/
theorem floodIter_nopit {h w : ℕ} (g : Grid h w) {c : Cell h w} (i : ℕ)
    (hv : valid g c) (hb : ¬ boundary g c) :
    minList ((validNbrs g c).map (floodIter g (i + 1))) (topval g) ≤
      floodIter g (i + 1) c := by
  have h1 : minList ((validNbrs g c).map (floodIter g (i + 1))) (topval g) ≤
      minList ((validNbrs g c).map (floodIter g i)) (topval g) :=
    minList_mono _ _ _ _ (fun t _ => floodIter_succ_le g i t)
  have h2 : minList ((validNbrs g c).map (floodIter g i)) (topval g) ≤
      floodIter g (i + 1) c := by
    show _ ≤ floodStep g (floodIter g i) c
    unfold floodStep
    rw [if_pos hv, if_neg hb]
    exact le_max_right _ _
  exact le_trans h1 h2

/-- Interior valid cells fall below `topval` once the sweep count exceeds
their row index: walking straight up from any interior cell
reaches a boundary cell inside the raster. -/
theorem floodIter_le_maxval {h w : ℕ} (g : Grid h w) :
    ∀ i c, valid g c → c.1.val < i → floodIter g i c ≤ maxval g := by
  intro i
  induction i with
  | zero => intro c _ hlt; omega
  | succ i ih =>
    intro c hv hlt
    by_cases hb : boundary g c
    · rw [floodIter_boundary hv hb]
      exact zval_le_maxval hv
    · rcases up_validNbr hb with ⟨u, humem, hurow⟩
      have hu : valid g u := valid_of_mem_validNbrs humem
      have hiu : floodIter g i u ≤ maxval g := ih u hu (by omega)
      show floodStep g (floodIter g i) c ≤ maxval g
      unfold floodStep
      rw [if_pos hv, if_neg hb]
      refine max_le (zval_le_maxval hv) ?_
      exact le_trans (minList_le_mem _ (List.mem_map_of_mem _ humem)) hiu

/-! ### Flat-distance lemmas (flat resolution) -/

theorem flatDist_outlet {h w : ℕ} {g : Grid h w} {c : Cell h w}
    (ho : flatOutlet g c) : ∀ i, flatDist g i c = 0 := by
  intro i
  cases i with
  | zero => unfold flatDist; rw [if_pos ho]
  | succ i =>
    show flatDistStep g (flatDist g i) c = 0
    unfold flatDistStep
    rw [if_pos ho]

theorem flatDist_pos {h w : ℕ} {g : Grid h w} {c : Cell h w}
    (ho : ¬ flatOutlet g c) : ∀ i, 1 ≤ flatDist g i c := by
  intro i
  induction i with
  | zero => unfold flatDist; rw [if_neg ho]; omega
  | succ i ih =>
    show 1 ≤ flatDistStep g (flatDist g i) c
    unfold flatDistStep
    rw [if_neg ho]
    omega

theorem flatDist_succ_le {h w : ℕ} (g : Grid h w) :
    ∀ i c, flatDist g (i + 1) c ≤ flatDist g i c := by
  intro i c
  show flatDistStep g (flatDist g i) c ≤ flatDist g i c
  unfold flatDistStep
  split
  · omega
  · exact min_le_left _ _

theorem flatDist_le_of_le {h w : ℕ} (g : Grid h w) {i j : ℕ} (hij : i ≤ j) :
    ∀ c, flatDist g j c ≤ flatDist g i c := by
  induction j with
  | zero =>
    intro c
    have : i = 0 := Nat.le_zero.mp hij
    rw [this]
  | succ j ih =>
    intro c
    rcases Nat.lt_or_ge i (j + 1) with hlt | hge
    · exact le_trans (flatDist_succ_le g j c) (ih (Nat.lt_succ_iff.mp hlt) c)
    · have : i = j + 1 := le_antisymm hij hge
      rw [this]

theorem flatDist_step_le {h w : ℕ} {g : Grid h w} {c n : Cell h w}
    (ho : ¬ flatOutlet g c) (hn : n ∈ equalNbrs g c) (i : ℕ) :
    flatDist g (i + 1) c ≤ 1 + flatDist g i n := by
  show flatDistStep g (flatDist g i) c ≤ 1 + flatDist g i n
  unfold flatDistStep
  rw [if_neg ho]
  refine le_trans (min_le_right _ _) ?_
  have := minList_le_mem (l := (equalNbrs g c).map (flatDist g i))
    (fuel h w + 1) (List.mem_map_of_mem (flatDist g i) hn)
  omega

/-- Positive finite flat distances are attained through an equal-elevation
neighbor one step closer to an outlet. -/
theorem flatDist_attained {h w : ℕ} (g : Grid h w) :
    ∀ i c v, flatDist g i c = v → 1 ≤ v → v ≤ fuel h w →
      ∃ n ∈ equalNbrs g c, flatDist g i n ≤ v - 1 := by
  intro i
  induction i with
  | zero =>
    intro c v hd h1 hfuel
    unfold flatDist at hd
    split at hd <;> omega
  | succ i ih =>
    intro c v hd h1 hfuel
    have ho : ¬ flatOutlet g c := by
      intro ho
      rw [flatDist_outlet ho] at hd
      omega
    have hd' : min (flatDist g i c)
        (1 + minList ((equalNbrs g c).map (flatDist g i)) (fuel h w + 1)) = v := by
      rw [← hd]
      show _ = flatDistStep g (flatDist g i) c
      unfold flatDistStep
      rw [if_neg ho]
    rcases le_total (flatDist g i c)
        (1 + minList ((equalNbrs g c).map (flatDist g i)) (fuel h w + 1)) with hle | hle
    · rw [min_eq_left hle] at hd'
      rcases ih c v hd' h1 hfuel with ⟨n, hn, hlen⟩
      exact ⟨n, hn, le_trans (flatDist_succ_le g i n) hlen⟩
    · rw [min_eq_right hle] at hd'
      rcases minList_eq_default_or_mem ((equalNbrs g c).map (flatDist g i))
          (fuel h w + 1) with hdef | hmem
      · omega
      · rcases List.mem_map.mp hmem with ⟨n, hn, hfn⟩
        refine ⟨n, hn, ?_⟩
        have := flatDist_succ_le g i n
        omega

theorem mem_equalNbrs {h w : ℕ} {g : Grid h w} {c n : Cell h w} :
    n ∈ equalNbrs g c ↔ n ∈ validNbrs g c ∧ zval g n = zval g c := by
  unfold equalNbrs
  rw [List.mem_filter]
  constructor
  · rintro ⟨hm, hb⟩
    exact ⟨hm, by simpa using hb⟩
  · rintro ⟨hm, hb⟩
    exact ⟨hm, by simpa using hb⟩

/-- No-sentinel theorem: on a depression-filled grid every valid cell's flat
distance is at most `fuel` — every flat produced by filling has an outlet
within the raster. -/
theorem flatDist_le_fuel {h w : ℕ} (g : Grid h w) :
    ∀ j, j ≤ fuel h w →
      ∀ c, valid g c → floodIter g j c ≤ floodIter g (fuel h w) c →
        flatDist (fillDepressions g) j c ≤ j := by
  have hpat : ∀ t, fillDepressions g t = none ↔ g t = none :=
    pattern_fillDepressions g
  have hzval : ∀ t, valid g t → zval (fillDepressions g) t = floodIter g (fuel h w) t := by
    intro t ht
    have hnone : g t ≠ none := ht
    unfold zval fillDepressions
    rcases hgt : g t with _ | z
    · exact absurd hgt hnone
    · simp
  intro j
  induction j with
  | zero =>
    intro _ c hv hle
    have hge : floodIter g (fuel h w) c ≤ floodIter g 0 c :=
      floodIter_le_of_le g (Nat.zero_le _) c
    have heq : floodIter g 0 c = floodIter g (fuel h w) c := le_antisymm hle hge
    have hb : boundary g c := by
      by_contra hb
      have hw0 : 0 < w := c.2.isLt.trans_le (Nat.le_refl w) |> fun _ => c.2.pos
      have hrow : c.1.val < fuel h w := by
        have h1 : c.1.val < h := c.1.isLt
        have h2 : 0 < w := c.2.pos
        have : h ≤ h * w := Nat.le_mul_of_pos_right h h2
        unfold fuel
        omega
      have hmax : floodIter g (fuel h w) c ≤ maxval g :=
        floodIter_le_maxval g (fuel h w) c hv hrow
      have hinit : floodIter g 0 c = topval g := by
        unfold floodIter floodInit
        rw [if_pos ⟨hv, hb⟩]
      rw [hinit] at heq
      unfold topval at heq
      linarith [heq ▸ hmax]
    have hob : flatOutlet (fillDepressions g) c :=
      Or.inl ((boundary_iff_of_pattern hpat c).mpr hb)
    rw [flatDist_outlet hob]
  | succ j ih =>
    intro hj c hv hle
    by_cases ho : flatOutlet (fillDepressions g) c
    · rw [flatDist_outlet ho]; omega
    · have hb : ¬ boundary g c := by
        intro hb
        exact ho (Or.inl ((boundary_iff_of_pattern hpat c).mpr hb))
      have hnolower : ∀ n ∈ validNbrs g c,
          floodIter g (fuel h w) c ≤ floodIter g (fuel h w) n := by
        intro n hn
        by_contra hlt
        push_neg at hlt
        have hnv : valid g n := valid_of_mem_validNbrs hn
        refine ho (Or.inr ⟨n, ?_, ?_⟩)
        · rw [validNbrs_eq_of_pattern hpat]; exact hn
        · rw [hzval n hnv, hzval c hv]; exact hlt
      have hge : floodIter g (fuel h w) c ≤ floodIter g (j + 1) c :=
        floodIter_le_of_le g hj c
      have heq : floodIter g (j + 1) c = floodIter g (fuel h w) c :=
        le_antisymm hle hge
      have hstep : floodIter g (j + 1) c =
          max (zval g c) (minList ((validNbrs g c).map (floodIter g j)) (topval g)) := by
        show floodStep g (floodIter g j) c = _
        unfold floodStep
        rw [if_pos hv, if_neg hb]
      have hminle : minList ((validNbrs g c).map (floodIter g j)) (topval g) ≤
          floodIter g (fuel h w) c := by
        rw [← heq, hstep]
        exact le_max_right _ _
      rcases exists_mem_le_of_minList rfl
          (fun n _ => floodIter_le_top g j n) (validNbrs_ne_nil hb) with ⟨n, hn, hfn⟩
      have hfn' : floodIter g j n ≤ floodIter g (fuel h w) c := le_trans hfn hminle
      have hnv : valid g n := valid_of_mem_validNbrs hn
      have hfueln : floodIter g (fuel h w) n ≤ floodIter g j n :=
        floodIter_le_of_le g (by omega) n
      have heqn : floodIter g (fuel h w) n = floodIter g (fuel h w) c :=
        le_antisymm (le_trans hfueln hfn') (hnolower n hn)
      have hjn : floodIter g j n ≤ floodIter g (fuel h w) n := by
        rw [heqn]; exact hfn'
      have hihn : flatDist (fillDepressions g) j n ≤ j := ih (by omega) n hnv hjn
      have hnmem : n ∈ equalNbrs (fillDepressions g) c := by
        rw [mem_equalNbrs]
        constructor
        · rw [validNbrs_eq_of_pattern hpat]; exact hn
        · rw [hzval n hnv, hzval c hv, heqn]
      have := flatDist_step_le ho hnmem j
      omega

/-! ### Gap and gradient-increment lemmas -/

theorem minGap_pos {h w : ℕ} (g : Grid h w) : 0 < minGap g := by
  unfold minGap
  refine lt_minList ?_ (by norm_num)
  intro a ha
  have := List.mem_filter.mp ha
  exact of_decide_eq_true this.2

theorem mem_gridVals {h w : ℕ} {g : Grid h w} {t : Cell h w} (ht : valid g t) :
    zval g t ∈ gridVals g := by
  unfold gridVals
  refine List.mem_map.mpr ⟨t, List.mem_filter.mpr ⟨mem_allCells t, ?_⟩, rfl⟩
  simpa [Option.isSome_iff_ne_none] using ht

theorem minGap_le {h w : ℕ} {g : Grid h w} {m n : Cell h w}
    (hm : valid g m) (hn : valid g n) (hlt : zval g m < zval g n) :
    minGap g ≤ zval g n - zval g m := by
  unfold minGap
  refine minList_le_mem 1 ?_
  refine List.mem_filter.mpr ⟨?_, by simpa using sub_pos.mpr hlt⟩
  refine List.mem_flatMap.mpr ⟨zval g m, mem_gridVals hm, ?_⟩
  exact List.mem_map.mpr ⟨zval g n, mem_gridVals hn, rfl⟩

theorem epsval_pos {h w : ℕ} (g : Grid h w) : 0 < epsval g := by
  unfold epsval
  have h1 := minGap_pos g
  have h2 : (0 : ℚ) < (fuel h w : ℚ) + 1 := by positivity
  positivity

theorem epsval_mul_fuel_lt {h w : ℕ} (g : Grid h w) :
    epsval g * (fuel h w : ℚ) < minGap g := by
  unfold epsval
  have h1 := minGap_pos g
  have h2 : (0 : ℚ) < (fuel h w : ℚ) + 1 := by positivity
  rw [div_mul_eq_mul_div, div_lt_iff₀ h2]
  nlinarith [h1]

theorem zval_resolveFlats {h w : ℕ} {g : Grid h w} {c : Cell h w} (hv : valid g c) :
    zval (resolveFlats g) c =
      zval g c + epsval g * (min (flatDist g (fuel h w) c) (fuel h w) : ℕ) := by
  have hnone : g c ≠ none := hv
  unfold zval resolveFlats
  rcases hgc : g c with _ | z
  · exact absurd hgc hnone
  · simp

/-- Strict-descent lemma: after flat resolution of a grid with no
unreachable flats, every interior valid cell has a strictly lower valid
neighbor. -/
theorem resolveFlats_strict {h w : ℕ} (G : Grid h w)
    (hs : ∀ c, valid G c → flatDist G (fuel h w) c ≤ fuel h w) :
    ∀ c, valid G c → ¬ boundary G c →
      ∃ n ∈ validNbrs G c, zval (resolveFlats G) n < zval (resolveFlats G) c := by
  intro c hv hb
  have hkc : flatDist G (fuel h w) c ≤ fuel h w := hs c hv
  rcases Nat.eq_zero_or_pos (flatDist G (fuel h w) c) with hzero | hpos
  · have ho : flatOutlet G c := by
      by_contra ho
      have := flatDist_pos ho (fuel h w)
      omega
    rcases ho with hob | ⟨n, hn, hlt⟩
    · exact absurd hob hb
    · refine ⟨n, hn, ?_⟩
      have hnv : valid G n := valid_of_mem_validNbrs hn
      rw [zval_resolveFlats hnv, zval_resolveFlats hv, hzero]
      have hz : min 0 (fuel h w) = 0 := Nat.zero_min (fuel h w)
      rw [hz]
      have hcap : ((min (flatDist G (fuel h w) n) (fuel h w) : ℕ) : ℚ) ≤
          ((fuel h w : ℕ) : ℚ) := Nat.cast_le.mpr (min_le_right _ _)
      have he := epsval_pos G
      have h1 : epsval G * ((min (flatDist G (fuel h w) n) (fuel h w) : ℕ) : ℚ) ≤
          epsval G * ((fuel h w : ℕ) : ℚ) :=
        mul_le_mul_of_nonneg_left hcap (le_of_lt he)
      have h2 : epsval G * ((fuel h w : ℕ) : ℚ) < minGap G := epsval_mul_fuel_lt G
      have h3 : minGap G ≤ zval G c - zval G n := minGap_le hnv hv hlt
      simp only [Nat.cast_zero, mul_zero, add_zero]
      linarith
  · rcases flatDist_attained G (fuel h w) c (flatDist G (fuel h w) c) rfl hpos hkc
      with ⟨n, hn, hlen⟩
    rcases mem_equalNbrs.mp hn with ⟨hnmem, hneq⟩
    refine ⟨n, hnmem, ?_⟩
    have hnv : valid G n := valid_of_mem_validNbrs hnmem
    rw [zval_resolveFlats hnv, zval_resolveFlats hv, hneq]
    have hkn : flatDist G (fuel h w) n ≤ fuel h w := hs n hnv
    rw [min_eq_left hkn, min_eq_left hkc]
    have hlt : flatDist G (fuel h w) n < flatDist G (fuel h w) c := by omega
    have he := epsval_pos G
    have : epsval G * ((flatDist G (fuel h w) n : ℕ) : ℚ) <
        epsval G * ((flatDist G (fuel h w) c : ℕ) : ℚ) :=
      mul_lt_mul_of_pos_left (by exact_mod_cast hlt) he
    linarith

/-! ### Fixpoint lemmas: conditioning an already-conditioned grid -/

/-- A cell can send its water to a boundary cell along a non-ascending
valid path of at most `n` steps. -/
def Reaches {h w : ℕ} (G : Grid h w) : ℕ → Cell h w → Prop
  | 0, c => boundary G c
  | n + 1, c =>
      boundary G c ∨ ∃ nb ∈ validNbrs G c, zval G nb ≤ zval G c ∧ Reaches G n nb

theorem reaches_succ {h w : ℕ} {G : Grid h w} :
    ∀ {n : ℕ} {c : Cell h w}, Reaches G n c → Reaches G (n + 1) c := by
  intro n
  induction n with
  | zero => intro c hr; exact Or.inl hr
  | succ n ih =>
    intro c hr
    rcases hr with hb | ⟨nb, hmem, hle, hr⟩
    · exact Or.inl hb
    · exact Or.inr ⟨nb, hmem, hle, ih hr⟩

theorem reaches_mono {h w : ℕ} {G : Grid h w} {n m : ℕ} (hnm : n ≤ m) :
    ∀ {c : Cell h w}, Reaches G n c → Reaches G m c := by
  induction m with
  | zero =>
    intro c hr
    have : n = 0 := Nat.le_zero.mp hnm
    rw [this] at hr
    exact hr
  | succ m ih =>
    intro c hr
    rcases Nat.lt_or_ge n (m + 1) with hlt | hge
    · exact reaches_succ (ih (Nat.lt_succ_iff.mp hlt) hr)
    · have : n = m + 1 := le_antisymm hnm hge
      rw [this] at hr
      exact hr

/-- Number of valid cells strictly lower than `c`. -/
def cardBelow {h w : ℕ} (G : Grid h w) (c : Cell h w) : ℕ :=
  (Finset.univ.filter (fun d => valid G d ∧ zval G d < zval G c)).card

theorem reaches_of_strict {h w : ℕ} {G : Grid h w}
    (hstrict : ∀ c, valid G c → ¬ boundary G c →
      ∃ n ∈ validNbrs G c, zval G n < zval G c) :
    ∀ m (c : Cell h w), valid G c → cardBelow G c ≤ m → Reaches G (m + 1) c := by
  intro m
  induction m with
  | zero =>
    intro c hv hcard
    by_cases hb : boundary G c
    · exact Or.inl hb
    · rcases hstrict c hv hb with ⟨n, hmem, hlt⟩
      have hmemset : n ∈ Finset.univ.filter
          (fun d => valid G d ∧ zval G d < zval G c) :=
        Finset.mem_filter.mpr ⟨Finset.mem_univ n, valid_of_mem_validNbrs hmem, hlt⟩
      have : 0 < cardBelow G c := Finset.card_pos.mpr ⟨n, hmemset⟩
      omega
  | succ m ih =>
    intro c hv hcard
    by_cases hb : boundary G c
    · exact Or.inl hb
    · rcases hstrict c hv hb with ⟨n, hmem, hlt⟩
      have hnv : valid G n := valid_of_mem_validNbrs hmem
      have hsub : Finset.univ.filter (fun d => valid G d ∧ zval G d < zval G n) ⊂
          Finset.univ.filter (fun d => valid G d ∧ zval G d < zval G c) := by
        constructor
        · intro d hd
          rcases Finset.mem_filter.mp hd with ⟨_, hdv, hdlt⟩
          exact Finset.mem_filter.mpr ⟨Finset.mem_univ d, hdv, lt_trans hdlt hlt⟩
        · intro hsub'
          have hn1 : n ∈ Finset.univ.filter
              (fun d => valid G d ∧ zval G d < zval G c) :=
            Finset.mem_filter.mpr ⟨Finset.mem_univ n, hnv, hlt⟩
          have hn2 := hsub' hn1
          rcases Finset.mem_filter.mp hn2 with ⟨_, _, habs⟩
          exact lt_irrefl _ habs
      have hlt' : cardBelow G n < cardBelow G c := Finset.card_lt_card hsub
      have : cardBelow G n ≤ m := by
        unfold cardBelow at hlt' hcard ⊢
        omega
      exact Or.inr ⟨n, hmem, le_of_lt hlt, ih n hnv this⟩

theorem cardBelow_lt_fuel {h w : ℕ} (G : Grid h w) (c : Cell h w) :
    cardBelow G c < fuel h w := by
  have hsub : Finset.univ.filter (fun d => valid G d ∧ zval G d < zval G c) ⊆
      Finset.univ.erase c := by
    intro d hd
    rcases Finset.mem_filter.mp hd with ⟨_, _, hdlt⟩
    refine Finset.mem_erase.mpr ⟨?_, Finset.mem_univ d⟩
    intro hdc
    rw [hdc] at hdlt
    exact lt_irrefl _ hdlt
  have h1 : cardBelow G c ≤ (Finset.univ.erase c).card := Finset.card_le_card hsub
  have h2 : (Finset.univ.erase c).card = Fintype.card (Cell h w) - 1 :=
    by rw [Finset.card_erase_of_mem (Finset.mem_univ c), Finset.card_univ]
  have h3 : Fintype.card (Cell h w) = h * w := by
    simp [Fintype.card_prod]
  have h4 : 0 < Fintype.card (Cell h w) := Fintype.card_pos_iff.mpr ⟨c⟩
  unfold fuel
  omega

theorem reaches_floodIter_le {h w : ℕ} (G : Grid h w) :
    ∀ n (c : Cell h w) i, Reaches G n c → valid G c → n ≤ i →
      floodIter G i c ≤ zval G c := by
  intro n
  induction n with
  | zero =>
    intro c i hr hv _
    rw [floodIter_boundary hv hr]
  | succ n ih =>
    intro c i hr hv hni
    rcases hr with hb | ⟨nb, hmem, hle, hrn⟩
    · rw [floodIter_boundary hv hb]
    · cases i with
      | zero => omega
      | succ i' =>
        show floodStep G (floodIter G i') c ≤ zval G c
        unfold floodStep
        rw [if_pos hv]
        by_cases hb : boundary G c
        · rw [if_pos hb]
        · rw [if_neg hb]
          refine max_le (le_refl _) ?_
          have hnbv : valid G nb := valid_of_mem_validNbrs hmem
          have h1 : floodIter G i' nb ≤ zval G nb :=
            ih nb i' hrn hnbv (by omega)
          exact le_trans
            (le_trans (minList_le_mem _ (List.mem_map_of_mem _ hmem)) h1) hle

theorem fillPits_fix {h w : ℕ} (G : Grid h w)
    (hstrict : ∀ c, valid G c → ¬ boundary G c →
      ∃ n ∈ validNbrs G c, zval G n < zval G c) :
    fillPits G = G := by
  funext c
  unfold fillPits
  rcases hGc : G c with _ | z
  · simp
  · have hv : valid G c := by unfold valid; rw [hGc]; exact fun hc => by cases hc
    have hzc : zval G c = z := by unfold zval; rw [hGc]; rfl
    simp only [Option.map_some']
    rw [if_neg]
    rintro ⟨hb, _, hlt⟩
    rcases hstrict c hv hb with ⟨n, hmem, hnlt⟩
    have h1 : minList ((validNbrs G c).map (zval G)) (topval G) ≤ zval G n :=
      minList_le_mem _ (List.mem_map_of_mem _ hmem)
    rw [hzc] at hnlt
    linarith

theorem fillDepressions_fix {h w : ℕ} (G : Grid h w)
    (hstrict : ∀ c, valid G c → ¬ boundary G c →
      ∃ n ∈ validNbrs G c, zval G n < zval G c) :
    fillDepressions G = G := by
  funext c
  unfold fillDepressions
  rcases hGc : G c with _ | z
  · simp
  · have hv : valid G c := by unfold valid; rw [hGc]; exact fun hc => by cases hc
    have hzc : zval G c = z := by unfold zval; rw [hGc]; rfl
    simp only [Option.map_some']
    have hfuelpos : 0 < fuel h w := by
      have h1 : 0 < h := c.1.pos
      have h2 : 0 < w := c.2.pos
      unfold fuel
      exact Nat.mul_pos h1 h2
    have hreach : Reaches G (fuel h w) c := by
      have := reaches_of_strict hstrict (fuel h w - 1) c hv
        (by have := cardBelow_lt_fuel G c; omega)
      have heq : fuel h w - 1 + 1 = fuel h w := Nat.succ_pred_eq_of_pos hfuelpos
      rw [heq] at this
      exact this
    have hle : floodIter G (fuel h w) c ≤ zval G c :=
      reaches_floodIter_le G (fuel h w) c (fuel h w) hreach hv (le_refl _)
    have hge : zval G c ≤ floodIter G (fuel h w) c := zval_le_floodIter G _ c
    rw [le_antisymm hle hge, hzc]

theorem resolveFlats_fix {h w : ℕ} (G : Grid h w)
    (hstrict : ∀ c, valid G c → ¬ boundary G c →
      ∃ n ∈ validNbrs G c, zval G n < zval G c) :
    resolveFlats G = G := by
  funext c
  unfold resolveFlats
  rcases hGc : G c with _ | z
  · simp
  · have hv : valid G c := by unfold valid; rw [hGc]; exact fun hc => by cases hc
    simp only [Option.map_some']
    have ho : flatOutlet G c := by
      by_cases hb : boundary G c
      · exact Or.inl hb
      · exact Or.inr (hstrict c hv hb)
    rw [flatDist_outlet ho, Nat.zero_min]
    simp

theorem existsValidBoundary {h w : ℕ} (G : Grid h w) :
    (∃ c, valid G c) → ∃ c, valid G c ∧ boundary G c := by
  rintro ⟨c, hv⟩
  suffices hm : ∀ m (c : Cell h w), c.1.val ≤ m → valid G c →
      ∃ c', valid G c' ∧ boundary G c' by
    exact hm c.1.val c (le_refl _) hv
  intro m
  induction m with
  | zero =>
    intro c hcm hv
    refine ⟨c, hv, Or.inl (Or.inl ?_)⟩
    omega
  | succ m ih =>
    intro c hcm hv
    by_cases hb : boundary G c
    · exact ⟨c, hv, hb⟩
    · rcases up_validNbr hb with ⟨u, humem, hurow⟩
      exact ih u (by omega) (valid_of_mem_validNbrs humem)

/-! ### The conditioned chain: strict descent and idempotence -/

theorem condition_ok_elim {h w : ℕ} {g g' : Grid h w}
    (hok : condition g = .ok g') :
    ¬ degenerate g ∧ g' = resolveFlats (fillDepressions (fillPits g)) := by
  unfold condition at hok
  split at hok
  · cases hok
  · exact ⟨by assumption, (Except.ok.inj hok).symm⟩

theorem condition_pattern {h w : ℕ} {g g' : Grid h w}
    (hok : condition g = .ok g') : ∀ t, g' t = none ↔ g t = none := by
  obtain ⟨_, hg'⟩ := condition_ok_elim hok
  intro t
  rw [hg']
  rw [pattern_resolveFlats, pattern_fillDepressions, pattern_fillPits]

/-- Every successfully conditioned grid has, at each interior valid cell, a
strictly lower valid neighbor. -/
theorem condition_strict {h w : ℕ} {g g' : Grid h w}
    (hok : condition g = .ok g') :
    ∀ c, valid g' c → ¬ boundary g' c →
      ∃ n ∈ validNbrs g' c, zval g' n < zval g' c := by
  obtain ⟨_, hg'⟩ := condition_ok_elim hok
  subst hg'
  have hpatD : ∀ t, fillDepressions (fillPits g) t = none ↔ fillPits g t = none :=
    pattern_fillDepressions (fillPits g)
  have hs : ∀ c, valid (fillDepressions (fillPits g)) c →
      flatDist (fillDepressions (fillPits g)) (fuel h w) c ≤ fuel h w := by
    intro c hvc
    have hv1 : valid (fillPits g) c := (valid_iff_of_pattern hpatD c).mp hvc
    exact flatDist_le_fuel (fillPits g) (fuel h w) (le_refl _) c hv1 (le_refl _)
  intro c hv hb
  have hpatR : ∀ t, resolveFlats (fillDepressions (fillPits g)) t = none ↔
      fillDepressions (fillPits g) t = none :=
    pattern_resolveFlats (fillDepressions (fillPits g))
  have hvG : valid (fillDepressions (fillPits g)) c :=
    (valid_iff_of_pattern hpatR c).mp hv
  have hbG : ¬ boundary (fillDepressions (fillPits g)) c :=
    fun hbc => hb ((boundary_iff_of_pattern hpatR c).mpr hbc)
  have hres := resolveFlats_strict (fillDepressions (fillPits g)) hs c hvG hbG
  rw [← validNbrs_eq_of_pattern hpatR c] at hres
  exact hres

/-- Conditioning is idempotent: a successfully conditioned grid conditions
to itself. -/
theorem condition_idempotent {h w : ℕ} {g g' : Grid h w}
    (hok : condition g = .ok g') : condition g' = .ok g' := by
  obtain ⟨hdeg, hg'⟩ := condition_ok_elim hok
  have hpat : ∀ t, g' t = none ↔ g t = none := condition_pattern hok
  have hstrict := condition_strict hok
  have hmirror : ∀ c, valid g' c → ¬ boundary g' c →
      ∃ n ∈ validNbrs g' c, zval g' n < zval g' c := hstrict
  have hdeg' : ¬ degenerate g' := by
    have hA : ∃ c, valid g c := by
      by_contra hA
      exact hdeg (Or.inl hA)
    rcases hA with ⟨c, hvc⟩
    have hA' : ∃ c, valid g' c := ⟨c, (valid_iff_of_pattern hpat c).mpr hvc⟩
    have hB' := existsValidBoundary g' hA'
    rintro (hd1 | ⟨_, hd2⟩)
    · exact hd1 hA'
    · exact hd2 hB'
  unfold condition
  rw [if_neg hdeg']
  rw [fillPits_fix g' hmirror, fillDepressions_fix g' hmirror,
    resolveFlats_fix g' hmirror]

/-! ### Flow Router

Modelled from the spec (section 4.2): for each valid cell evaluate the
descent slope `(own - neighbor) / distance` towards each in-raster valid
neighbor (diagonal distance `√2`, orthogonal distance `1`), select the
neighbor of maximum descent slope, breaking ties by the fixed documented
priority order (cardinal directions before diagonal, then a fixed
direction-code order).  Cells whose best in-raster choice still ascends, or
with no in-raster valid neighbor, drain off the raster and are marked as
sinks; nodata cells are undefined.  Slope comparison is exact: `u/√p > v/√q`
is decided on signs and squares, avoiding irrational arithmetic. -/

/-- The 8 D8 direction codes. -/
inductive Dir where
  | E | S | W | N | SE | SW | NW | NE
  deriving DecidableEq, Repr

/-- Raster offset of a direction code as (row change, column change). -/
def dirOffset : Dir → ℤ × ℤ
  | .E => (0, 1)
  | .S => (1, 0)
  | .W => (0, -1)
  | .N => (-1, 0)
  | .SE => (1, 1)
  | .SW => (1, -1)
  | .NW => (-1, -1)
  | .NE => (-1, 1)

/-- Squared distance to the targeted neighbor, in cell-size units. -/
def dirDistSq : Dir → ℚ
  | .E | .S | .W | .N => 1
  | .SE | .SW | .NW | .NE => 2

/-- Candidate evaluation order: cardinal before diagonal, then fixed
direction-code order — the deterministic tie-break the spec mandates. -/
def dirOrder : List Dir := [.E, .S, .W, .N, .SE, .SW, .NW, .NE]

/-- Exact comparison `u₁/√p₁ > u₂/√p₂` for positive `p₁ p₂`, by sign
analysis and squaring. -/
def slopeGT (u₁ p₁ u₂ p₂ : ℚ) : Bool :=
  if 0 ≤ u₁ then
    if 0 ≤ u₂ then decide (u₁ ^ 2 * p₂ > u₂ ^ 2 * p₁) else true
  else
    if 0 ≤ u₂ then false else decide (u₁ ^ 2 * p₂ < u₂ ^ 2 * p₁)

/-- The routing candidates of a cell: direction, in-raster valid target and
elevation drop, in tie-break order. -/
def candidates {h w : ℕ} (g : Grid h w) (c : Cell h w) :
    List (Dir × Cell h w × ℚ) :=
  dirOrder.filterMap (fun d =>
    (shift c (dirOffset d)).bind (fun t =>
      if (g t).isSome then some (d, t, zval g c - zval g t) else none))

/-- Steepest-descent selection by left fold; an earlier candidate wins ties
because replacement happens only on strictly greater slope. -/
def bestCandidate {h w : ℕ} (l : List (Dir × Cell h w × ℚ)) :
    Option (Dir × Cell h w × ℚ) :=
  l.foldl (fun best cand =>
    match best with
    | none => some cand
    | some b =>
        if slopeGT cand.2.2 (dirDistSq cand.1) b.2.2 (dirDistSq b.1) then some cand
        else some b) none

/-- Per-cell result of D8 routing. -/
inductive FlowDir where
  | undef
  | sink
  | flow (d : Dir)
  deriving DecidableEq, Repr

/-- A direction grid. -/
def DirGrid (h w : ℕ) := Cell h w → FlowDir

instance {h w : ℕ} : DecidableEq (DirGrid h w) :=
  fun g₁ g₂ => Fintype.decidablePiFintype g₁ g₂

/-- The routing operation (`route` of the spec's interface, realised in the
repository by `PySheksWrapper.calculate_flow_direction`). -/
def route {h w : ℕ} (g : Grid h w) : DirGrid h w := fun c =>
  if valid g c then
    match bestCandidate (candidates g c) with
    | none => .sink
    | some b => if b.2.2 < 0 then .sink else .flow b.1
  else .undef

theorem bestCandidate_mem {h w : ℕ} :
    ∀ (l : List (Dir × Cell h w × ℚ)) (acc b : Option (Dir × Cell h w × ℚ)),
      l.foldl (fun best cand =>
        match best with
        | none => some cand
        | some b' =>
            if slopeGT cand.2.2 (dirDistSq cand.1) b'.2.2 (dirDistSq b'.1) then
              some cand
            else some b') acc = b →
      b = acc ∨ ∃ x ∈ l, b = some x := by
  intro l
  induction l with
  | nil => intro acc b hb; exact Or.inl hb.symm
  | cons a t ih =>
    intro acc b hb
    rw [List.foldl_cons] at hb
    rcases ih _ b hb with hacc | ⟨x, hx, hbx⟩
    · rcases hacc' : acc with _ | av
      · rw [hacc'] at hacc
        exact Or.inr ⟨a, List.mem_cons_self a t, by simpa using hacc⟩
      · rw [hacc'] at hacc
        simp only at hacc
        split at hacc
        · exact Or.inr ⟨a, List.mem_cons_self a t, hacc⟩
        · exact Or.inl hacc
    · exact Or.inr ⟨x, List.mem_cons_of_mem a hx, hbx⟩

theorem mem_candidates {h w : ℕ} {g : Grid h w} {c : Cell h w}
    {b : Dir × Cell h w × ℚ} (hb : b ∈ candidates g c) :
    shift c (dirOffset b.1) = some b.2.1 ∧ valid g b.2.1 ∧
      b.2.2 = zval g c - zval g b.2.1 := by
  unfold candidates at hb
  rcases List.mem_filterMap.mp hb with ⟨d, _, hd⟩
  rcases hsh : shift c (dirOffset d) with _ | t
  · rw [hsh] at hd; cases hd
  · rw [hsh] at hd
    simp only [Option.some_bind] at hd
    split at hd
    · obtain rfl := Option.some.inj hd
      refine ⟨hsh, ?_, rfl⟩
      unfold valid
      rename_i hsome
      simpa [Option.isSome_iff_ne_none] using hsome
    · cases hd

/-- Routed directions never ascend: the targeted neighbor is a valid
in-raster cell of elevation at most the cell's own. -/
theorem route_nonascending {h w : ℕ} (g : Grid h w) (c : Cell h w) (d : Dir)
    (hd : route g c = .flow d) :
    ∃ t, shift c (dirOffset d) = some t ∧ valid g t ∧ zval g t ≤ zval g c := by
  unfold route at hd
  split at hd
  · rcases hbest : bestCandidate (candidates g c) with _ | b
    · rw [hbest] at hd; cases hd
    · rw [hbest] at hd
      simp only at hd
      split at hd
      · cases hd
      · obtain rfl := FlowDir.flow.inj hd
        rename_i hnneg
        have hmem : ∃ x ∈ candidates g c, some b = some x := by
          rcases bestCandidate_mem (candidates g c) none (some b) hbest with habs | hx
          · cases habs
          · exact hx
        rcases hmem with ⟨x, hx, hbx⟩
        rcases Option.some.inj hbx with rfl
        rcases mem_candidates hx with ⟨hsh, hval, hdrop⟩
        refine ⟨b.2.1, hsh, hval, ?_⟩
        push_neg at hnneg
        rw [hdrop] at hnneg
        linarith
  · cases hd

/-! ### Flow Accumulator

Modelled from the spec (section 4.3): build the drainage graph (one edge
from each cell to the cell its direction points to), count for every cell
the cells whose flow path reaches it by propagating contributions
downstream, and defensively detect cycles, failing with
`CyclicFlowGraphError` instead of looping.  `pysheds.Grid.accumulation`
(called by `PySheksWrapper.calculate_flow_accumulation`) is external to the
repository, so the spec is the modelling authority. -/

/-- The drainage-graph successor of a cell: the in-raster cell its flow
direction targets. -/
def step {h w : ℕ} (D : DirGrid h w) (c : Cell h w) : Option (Cell h w) :=
  match D c with
  | .flow d => shift c (dirOffset d)
  | _ => none

/-- Cells participating in the drainage graph (anything but nodata). -/
def validD {h w : ℕ} (D : DirGrid h w) (c : Cell h w) : Prop := D c ≠ .undef

instance {h w : ℕ} (D : DirGrid h w) (c : Cell h w) : Decidable (validD D c) := by
  unfold validD; infer_instance

/-- `j`-fold iteration of the drainage-graph successor. -/
def stepIter {h w : ℕ} (D : DirGrid h w) : ℕ → Cell h w → Option (Cell h w)
  | 0 => fun c => some c
  | j + 1 => fun c => (stepIter D j c).bind (step D)

/-- The immediate upstream cells of `c`: the cells whose direction points
directly into `c`. -/
def preds {h w : ℕ} (D : DirGrid h w) (c : Cell h w) : Finset (Cell h w) :=
  Finset.univ.filter (fun d => step D d = some c)

/-- Downstream propagation of upstream-cell counts, one sweep at a time:
after `i` sweeps a valid cell counts itself plus its immediate upstream
cells' counts from the previous sweep. -/
def accIter {h w : ℕ} (D : DirGrid h w) : ℕ → Cell h w → ℕ
  | 0 => fun c => if validD D c then 1 else 0
  | i + 1 => fun c => if validD D c then 1 + ∑ d ∈ preds D c, accIter D i d else 0

/-- Defensive cycle detection: some graph cell returns to itself within
`fuel` steps. -/
def cyclic {h w : ℕ} (D : DirGrid h w) : Prop :=
  ∃ c, validD D c ∧ ∃ j ∈ Finset.Icc 1 (fuel h w), stepIter D j c = some c

instance {h w : ℕ} (D : DirGrid h w) : Decidable (cyclic D) := by
  unfold cyclic; infer_instance

/-- The accumulation operation (`accumulate` of the spec's interface,
realised in the repository by `PySheksWrapper.calculate_flow_accumulation`). -/
def accumulate {h w : ℕ} (D : DirGrid h w) : Except Err (Cell h w → ℕ) :=
  if cyclic D then .error .cyclicFlowGraph else .ok (accIter D (fuel h w))

theorem stepIter_add {h w : ℕ} (D : DirGrid h w) (a : ℕ) :
    ∀ b c, stepIter D (a + b) c = (stepIter D a c).bind (stepIter D b) := by
  intro b
  induction b with
  | zero =>
    intro c
    show stepIter D a c = _
    rcases hs : stepIter D a c with _ | m <;> simp [stepIter, hs]
  | succ b ih =>
    intro c
    show stepIter D (a + b + 1) c = _
    show (stepIter D (a + b) c).bind (step D) = _
    rw [ih c]
    rcases hs : stepIter D a c with _ | m
    · simp
    · simp only [Option.some_bind]
      rfl

theorem validD_of_step {h w : ℕ} {D : DirGrid h w} {d c : Cell h w}
    (hs : step D d = some c) : validD D d := by
  unfold step at hs
  unfold validD
  intro hu
  rw [hu] at hs
  cases hs

/-- Cells whose `j`-step flow path ends at `c`. -/
def pathsInto {h w : ℕ} (D : DirGrid h w) (j : ℕ) (c : Cell h w) :
    Finset (Cell h w) :=
  Finset.univ.filter (fun d => validD D d ∧ stepIter D j d = some c)

theorem pathsInto_zero {h w : ℕ} (D : DirGrid h w) (c : Cell h w) :
    (pathsInto D 0 c).card = if validD D c then 1 else 0 := by
  unfold pathsInto
  split
  · rename_i hv
    have : Finset.univ.filter
        (fun d => validD D d ∧ stepIter D 0 d = some c) = {c} := by
      ext d
      simp only [Finset.mem_filter, Finset.mem_univ, true_and, Finset.mem_singleton]
      constructor
      · rintro ⟨_, hs⟩
        exact Option.some.inj hs
      · rintro rfl
        exact ⟨hv, rfl⟩
    rw [this, Finset.card_singleton]
  · rename_i hv
    have : Finset.univ.filter
        (fun d => validD D d ∧ stepIter D 0 d = some c) = ∅ := by
      ext d
      simp only [Finset.mem_filter, Finset.mem_univ, true_and,
        Finset.not_mem_empty, iff_false, not_and]
      intro hdv hs
      exact hv (Option.some.inj hs ▸ hdv)
    rw [this, Finset.card_empty]

theorem pathsInto_succ {h w : ℕ} (D : DirGrid h w) (j : ℕ) (c : Cell h w) :
    (pathsInto D (j + 1) c).card = ∑ d ∈ preds D c, (pathsInto D j d).card := by
  have hsplit : pathsInto D (j + 1) c = (preds D c).biUnion (pathsInto D j) := by
    ext e
    simp only [pathsInto, preds, Finset.mem_biUnion, Finset.mem_filter,
      Finset.mem_univ, true_and]
    constructor
    · rintro ⟨hev, hs⟩
      show ∃ d, step D d = some c ∧ _
      rcases hmid : stepIter D j e with _ | m
      · rw [show stepIter D (j + 1) e = (stepIter D j e).bind (step D) from rfl,
          hmid] at hs
        cases hs
      · rw [show stepIter D (j + 1) e = (stepIter D j e).bind (step D) from rfl,
          hmid] at hs
        simp only [Option.some_bind] at hs
        exact ⟨m, hs, hev, rfl⟩
    · rintro ⟨d, hdc, hev, hs⟩
      refine ⟨hev, ?_⟩
      rw [show stepIter D (j + 1) e = (stepIter D j e).bind (step D) from rfl, hs]
      simpa using hdc
  rw [hsplit]
  refine Finset.card_biUnion ?_
  intro d₁ h₁ d₂ h₂ hne
  refine Finset.disjoint_left.mpr ?_
  intro e he₁ he₂
  rcases Finset.mem_filter.mp he₁ with ⟨_, _, hs₁⟩
  rcases Finset.mem_filter.mp he₂ with ⟨_, _, hs₂⟩
  exact hne (Option.some.inj (hs₁.symm.trans hs₂))

/-- Closed form of the propagation sweeps: after `i` sweeps a valid cell
counts exactly the flow paths of length at most `i` ending at it. -/
theorem accIter_eq_sum {h w : ℕ} (D : DirGrid h w) :
    ∀ i c, validD D c →
      accIter D i c = ∑ j ∈ Finset.range (i + 1), (pathsInto D j c).card := by
  intro i
  induction i with
  | zero =>
    intro c hv
    show (if validD D c then 1 else 0) = _
    rw [if_pos hv, Finset.sum_range_one, pathsInto_zero, if_pos hv]
  | succ i ih =>
    intro c hv
    show (if validD D c then 1 + ∑ d ∈ preds D c, accIter D i d else 0) = _
    rw [if_pos hv]
    have hpred : ∀ d ∈ preds D c, accIter D i d =
        ∑ j ∈ Finset.range (i + 1), (pathsInto D j d).card := by
      intro d hd
      exact ih d (validD_of_step (Finset.mem_filter.mp hd).2)
    rw [Finset.sum_congr rfl hpred, Finset.sum_comm]
    have hswap : ∀ j ∈ Finset.range (i + 1),
        ∑ d ∈ preds D c, (pathsInto D j d).card = (pathsInto D (j + 1) c).card := by
      intro j _
      exact (pathsInto_succ D j c).symm
    rw [Finset.sum_congr rfl hswap]
    rw [Finset.sum_range_succ' (fun j => (pathsInto D j c).card) (i + 1)]
    rw [pathsInto_zero, if_pos hv]
    omega

/-- Acyclic graphs admit no flow path longer than the cell count. -/
theorem pathsInto_long_empty {h w : ℕ} {D : DirGrid h w} (hacyc : ¬ cyclic D)
    (c : Cell h w) : pathsInto D (fuel h w + 1) c = ∅ := by
  by_contra hne
  rcases Finset.nonempty_of_ne_empty hne with ⟨e, he⟩
  rcases Finset.mem_filter.mp he with ⟨_, hev, hs⟩
  have hsome : ∀ a, a ≤ fuel h w + 1 → (stepIter D a e).isSome := by
    intro a ha
    rcases Nat.le.dest ha with ⟨b, hb⟩
    rcases hsa : stepIter D a e with _ | m
    · have := stepIter_add D a b e
      rw [hb, hs] at this
      rw [hsa] at this
      simp at this
    · rfl
  have hcard : Fintype.card (Cell h w) < Fintype.card (Fin (fuel h w + 1)) := by
    rw [Fintype.card_fin]
    have : Fintype.card (Cell h w) = h * w := by simp [Fintype.card_prod]
    unfold fuel
    omega
  rcases Fintype.exists_ne_map_eq_of_card_lt
      (fun a : Fin (fuel h w + 1) => (stepIter D a.val e).getD e) hcard
    with ⟨a₁, a₂, hne', heq⟩
  have aux : ∀ b₁ b₂ : ℕ, b₁ < b₂ → b₂ ≤ fuel h w →
      (stepIter D b₁ e).getD e = (stepIter D b₂ e).getD e → cyclic D := by
    intro b₁ b₂ hblt hb₂ hbeq
    rcases Option.isSome_iff_exists.mp (hsome b₁ (by omega)) with ⟨m₁, hm₁⟩
    rcases Option.isSome_iff_exists.mp (hsome b₂ (by omega)) with ⟨m₂, hm₂⟩
    have hmeq : m₁ = m₂ := by
      rw [hm₁, hm₂] at hbeq
      simpa using hbeq
    have hj : stepIter D (b₂ - b₁) m₁ = some m₁ := by
      have hadd := stepIter_add D b₁ (b₂ - b₁) e
      rw [show b₁ + (b₂ - b₁) = b₂ by omega, hm₁, hm₂] at hadd
      simp only [Option.some_bind] at hadd
      rw [← hmeq] at hadd
      exact hadd.symm
    have hjpos : 1 ≤ b₂ - b₁ := by omega
    have hvm : validD D m₁ := by
      have hone := stepIter_add D 1 (b₂ - b₁ - 1) m₁
      rw [show 1 + (b₂ - b₁ - 1) = b₂ - b₁ by omega, hj] at hone
      have hstep1 : stepIter D 1 m₁ = step D m₁ := by
        show (stepIter D 0 m₁).bind (step D) = step D m₁
        simp [stepIter]
      rw [hstep1] at hone
      rcases hsm : step D m₁ with _ | mid
      · rw [hsm] at hone
        simp at hone
      · exact validD_of_step hsm
    exact ⟨m₁, hvm, b₂ - b₁, Finset.mem_Icc.mpr ⟨hjpos, by omega⟩, hj⟩
  rcases Fin.lt_or_lt_of_ne hne' with hlt | hlt
  · exact hacyc (aux a₁.val a₂.val hlt (by omega) heq)
  · exact hacyc (aux a₂.val a₁.val hlt (by omega) heq.symm)

/-- The accumulation recurrence: a successfully produced accumulation grid
gives every graph cell a count of at least 1, equal to 1 plus the sum of
the counts of its immediate upstream cells. -/
theorem accumulate_recurrence {h w : ℕ} {D : DirGrid h w} {A : Cell h w → ℕ}
    (hok : accumulate D = .ok A) (c : Cell h w) (hv : validD D c) :
    1 ≤ A c ∧ A c = 1 + ∑ d ∈ preds D c, A d := by
  have hsplit : ¬ cyclic D ∧ A = accIter D (fuel h w) := by
    unfold accumulate at hok
    split at hok
    · cases hok
    · exact ⟨by assumption, (Except.ok.inj hok).symm⟩
  obtain ⟨hacyc, rfl⟩ := hsplit
  have hstep : accIter D (fuel h w + 1) c =
      1 + ∑ d ∈ preds D c, accIter D (fuel h w) d := by
    show (if validD D c then _ else 0) = _
    rw [if_pos hv]
  have hstable : accIter D (fuel h w + 1) c = accIter D (fuel h w) c := by
    rw [accIter_eq_sum D (fuel h w + 1) c hv, accIter_eq_sum D (fuel h w) c hv]
    rw [Finset.sum_range_succ (fun j => (pathsInto D j c).card) (fuel h w + 1)]
    rw [pathsInto_long_empty hacyc c]
    simp
  constructor
  · cases hfe : fuel h w with
    | zero =>
      show 1 ≤ (if validD D c then 1 else 0)
      rw [if_pos hv]
    | succ i =>
      show 1 ≤ (if validD D c then 1 + _ else 0)
      rw [if_pos hv]
      omega
  · rw [← hstable, hstep]

/-! ### Catchment Extractor

Modelled from the spec (sections 4.4 and 6): convert the pour-point
coordinate to a pixel index through the inverse of the six-coefficient
affine georeferencing transform, round to the nearest cell, fail with
`PourPointOutOfBoundsError` when the index leaves the raster, and otherwise
mark every cell whose flow path reaches the pour cell.
`pysheds.Grid.nearest_cell` / `catchment` (called by
`PySheksWrapper.delineate_watershed`) are external to the repository, so
the spec is the modelling authority.  The spec assumes an invertible
transform; a singular transform maps the coordinate to no cell and is
treated as out of bounds. -/

/-- Six-coefficient affine transform: `x = a·col + b·row + c`,
`y = d·col + e·row + f`. -/
structure AffineT where
  a : ℚ
  b : ℚ
  c : ℚ
  d : ℚ
  e : ℚ
  f : ℚ
  deriving DecidableEq, Repr

/-- Determinant of the linear part of the transform. -/
def detA (T : AffineT) : ℚ := T.a * T.e - T.b * T.d

/-- Exact fractional column index of a world coordinate. -/
def invCol (T : AffineT) (x y : ℚ) : ℚ :=
  (T.e * (x - T.c) - T.b * (y - T.f)) / detA T

/-- Exact fractional row index of a world coordinate. -/
def invRow (T : AffineT) (x y : ℚ) : ℚ :=
  (T.a * (y - T.f) - T.d * (x - T.c)) / detA T

/-- Pixel index (col, row) nearest to a world coordinate, when the
transform is invertible. -/
def nearestCell (T : AffineT) (x y : ℚ) : Option (ℤ × ℤ) :=
  if detA T = 0 then none else some (round (invCol T x y), round (invRow T x y))

/-- The catchment mask of a pour cell: true exactly on the cells whose flow
path reaches the pour cell (reverse reachability over the drainage
graph). -/
def catchMask {h w : ℕ} (D : DirGrid h w) (pc : Cell h w) : Cell h w → Bool :=
  fun c =>
    @decide (∃ j ∈ List.range (fuel h w + 1), stepIter D j c = some pc)
      (List.decidableBEx _ _)

/-- The delineation operation (`delineate` of the spec's interface,
realised in the repository by `PySheksWrapper.delineate_watershed`
steps 4-5): snap the pour coordinate, check bounds, extract the
catchment mask. -/
def delineate {h w : ℕ} (D : DirGrid h w) (T : AffineT) (x y : ℚ) :
    Except Err ((Cell h w → Bool) × Cell h w) :=
  match nearestCell T x y with
  | none => .error .pourPointOutOfBounds
  | some (ci, ri) =>
      if hin : 0 ≤ ri ∧ ri < (h : ℤ) ∧ 0 ≤ ci ∧ ci < (w : ℤ) then
        .ok (catchMask D (⟨ri.toNat, by omega⟩, ⟨ci.toNat, by omega⟩),
          (⟨ri.toNat, by omega⟩, ⟨ci.toNat, by omega⟩))
      else .error .pourPointOutOfBounds

/-- A successful delineation marks its own pour cell. -/
theorem delineate_mask_contains_pour {h w : ℕ} (D : DirGrid h w) (T : AffineT)
    (x y : ℚ) (m : Cell h w → Bool) (pc : Cell h w)
    (hok : delineate D T x y = .ok (m, pc)) : m pc = true := by
  unfold delineate at hok
  rcases hnc : nearestCell T x y with _ | ci
  · rw [hnc] at hok
    cases hok
  · rw [hnc] at hok
    rcases ci with ⟨ci, ri⟩
    simp only at hok
    split at hok
    · rcases Prod.mk.injEq _ _ _ _ ▸ Except.ok.inj hok with ⟨hm, hpc⟩
      rw [← hm, ← hpc]
      unfold catchMask
      refine decide_eq_true ?_
      exact ⟨0, List.mem_range.mpr (by omega), rfl⟩
    · cases hok

/-- Out-of-bounds snapped pour indices make delineation fail with
`PourPointOutOfBoundsError`. -/
theorem delineate_out_of_bounds {h w : ℕ} (D : DirGrid h w) (T : AffineT)
    (x y : ℚ) (ci ri : ℤ)
    (hnc : nearestCell T x y = some (ci, ri))
    (hout : ¬ (0 ≤ ri ∧ ri < (h : ℤ) ∧ 0 ≤ ci ∧ ci < (w : ℤ))) :
    delineate D T x y = .error .pourPointOutOfBounds := by
  unfold delineate
  rw [hnc]
  simp only
  rw [dif_neg hout]

/-! ### Vectorization filtering and final assembly

Embedded from the repository source, `pysheds_wrapper.py` steps 7-10 of
`delineate_watershed` (lines 266-304): the list of raster shapes coming out
of `rasterio.features.shapes` is filtered to the shapes of value 1 that are
valid with positive area; an empty shape list or an empty filtered list
raises (`ValueError`, the spec's `EmptyCatchmentError` tag); one valid
shape is used as is, several are combined with `shapely.ops.unary_union`;
the result is a single-row GeoDataFrame with `id = 1` and the CRS read from
the raster (the temporary-file round trip copies the DEM's profile, so the
CRS is the input DEM's).  Shapely geometry payloads are abstract ring
lists; `unary_union` of disjoint catchment parts is their multi-part
collection. -/

/-- A polygon payload: exterior ring plus holes, as coordinate lists. -/
def Poly := List (List (ℚ × ℚ))

instance : DecidableEq Poly :=
  fun p₁ p₂ => (inferInstance : DecidableEq (List (List (ℚ × ℚ)))) p₁ p₂

/-- A raster shape as produced by `rasterio.features.shapes` and wrapped by
`shapely.geometry.shape`: payload, rasterized value, shapely validity flag
and area. -/
structure Shape where
  rings : Poly
  value : ℚ
  isValidGeom : Bool
  area : ℚ
  deriving DecidableEq

/-- A multi-part geometry: the collection of polygon parts. -/
def Geom := List Poly

instance : DecidableEq Geom :=
  fun g₁ g₂ => (inferInstance : DecidableEq (List Poly)) g₁ g₂

/-- `shapely.ops.unary_union` on disjoint catchment polygons: the
holes-preserving multi-part collection of all of them. -/
def unaryUnion (ps : List Poly) : Geom := ps

/-- Steps 7-8 of `delineate_watershed`: fail when no shapes were created,
keep the value-1 valid positive-area shapes, fail when none remains. -/
def vectorizeFilter (shapes : List Shape) : Except Err (List Poly) :=
  if shapes = [] then .error .emptyCatchment
  else
    let valids := (shapes.filter
      (fun s => s.value == 1 && s.isValidGeom && decide (0 < s.area))).map Shape.rings
    if valids = [] then .error .emptyCatchment
    else .ok valids

/-- Step 9 of `delineate_watershed`: one polygon is used directly, several
are merged with `unary_union`. -/
def finalGeom (ps : List Poly) : Geom :=
  match ps with
  | [p] => [p]
  | _ => unaryUnion ps

/-- One row of the resulting GeoDataFrame. -/
structure Feature where
  id : ℕ
  geom : Geom
  deriving DecidableEq

/-- The resulting GeoDataFrame: rows plus a CRS tag. -/
structure GeoDataFrame where
  rows : List Feature
  crs : String
  deriving DecidableEq

/-- Steps 7-10 of `delineate_watershed`: filter, merge, and build the
single-feature GeoDataFrame with `id = 1` and the raster's CRS. -/
def assembleWatershed (shapes : List Shape) (crs : String) :
    Except Err GeoDataFrame :=
  (vectorizeFilter shapes).map (fun ps => ⟨[⟨1, finalGeom ps⟩], crs⟩)

theorem finalGeom_eq_unaryUnion (ps : List Poly) : finalGeom ps = unaryUnion ps := by
  unfold finalGeom unaryUnion
  match ps with
  | [] => rfl
  | [p] => rfl
  | p₁ :: p₂ :: t => rfl

/-! ### Watershed statistics

Embedded from the repository source, `PySheksWrapper.get_watershed_stats`
(`pysheds_wrapper.py` lines 365-387): sums `geometry.area` and
`geometry.length` in the CRS's own units and returns them under the keys
`area_m2 / area_ha / area_km2 / perimeter_m / perimeter_km`, plus bounds
and CRS.  The function performs no CRS inspection, no reprojection, and
returns no warning of any kind. -/

/-- A coordinate reference system identifier with its geographic
(degree-based) flag. -/
structure CRSInfo where
  code : String
  isGeographic : Bool
  deriving DecidableEq, Repr

/-- What `get_watershed_stats` reads from the GeoDataFrame it receives:
the summed area and length in CRS units, the total bounds and the CRS. -/
structure StatsInput where
  areaSum : ℚ
  lengthSum : ℚ
  bounds : ℚ × ℚ × ℚ × ℚ
  crs : CRSInfo
  deriving DecidableEq

/-- The dictionary returned by `get_watershed_stats`.  It has exactly these
keys; in particular it carries no warning and no reprojected geometry. -/
structure WatershedStats where
  area_m2 : ℚ
  area_ha : ℚ
  area_km2 : ℚ
  perimeter_m : ℚ
  perimeter_km : ℚ
  bounds : ℚ × ℚ × ℚ × ℚ
  crs : CRSInfo
  deriving DecidableEq

/-- `PySheksWrapper.get_watershed_stats`, line for line: raw CRS-unit sums
relabelled as metric quantities. -/
def getWatershedStats (gdf : StatsInput) : WatershedStats :=
  { area_m2 := gdf.areaSum
    area_ha := gdf.areaSum / 10000
    area_km2 := gdf.areaSum / 1000000
    perimeter_m := gdf.lengthSum
    perimeter_km := gdf.lengthSum / 1000
    bounds := gdf.bounds
    crs := gdf.crs }

/-! ### Engine shared state

Embedded from the repository source: `PySheksWrapper.__init__` creates the
long-lived mutable fields `grid`, `dem`, `fdir`, `acc`, `dem_path`
(`pysheds_wrapper.py` lines 23-30), and the pipeline methods mutate them in
place.  A Python method that raises keeps every assignment made before the
raise, so each method is modelled as `EngineState → EngineState × Except`;
external `pysheds` calls are oracles returning handles (opaque naturals)
or failing. -/

/-- Python exception classes raised by the wrapper methods. -/
inductive PyErr where
  | fileNotFound
  | valueError
  | attributeError
  | pyshedsError
  deriving DecidableEq, Repr

/-- The wrapper's long-lived fields, as set up by `__init__`. -/
structure EngineState where
  grid : Option ℕ
  dem : Option ℕ
  fdir : Option ℕ
  acc : Option ℕ
  demPath : Option String
  deriving DecidableEq, Repr

/-- `PySheksWrapper.__init__`: every field starts at `None`. -/
def initState : EngineState := ⟨none, none, none, none, none⟩

/-- `PySheksWrapper.load_dem`: existence check, then `self.dem_path = ...`
(line 52, before the try block), then `self.grid = Grid.from_raster(...)`
and `self.dem = self.grid.read_raster(...)`; a raise keeps the assignments
already made. -/
def loadDem (exists? : String → Bool)
    (fromRaster readRaster : String → Except PyErr ℕ)
    (path : String) (st : EngineState) : EngineState × Except PyErr ℕ :=
  if exists? path = false then (st, .error .fileNotFound)
  else
    let st₁ := { st with demPath := some path }
    match fromRaster path with
    | .error e => (st₁, .error e)
    | .ok g =>
        let st₂ := { st₁ with grid := some g }
        match readRaster path with
        | .error e => (st₂, .error e)
        | .ok d => ({ st₂ with dem := some d }, .ok g)

/-- `PySheksWrapper.preprocess_dem`: guard on `self.dem`, then three pure
`pysheds` calls; no field is assigned. -/
def preprocessDem (conditionOracle : ℕ → Except PyErr ℕ)
    (st : EngineState) : EngineState × Except PyErr ℕ :=
  match st.dem with
  | none => (st, .error .valueError)
  | some d => (st, conditionOracle d)

/-- `PySheksWrapper.calculate_flow_direction`: `self.grid.flowdir(...)`
(an `AttributeError` when `self.grid` is `None`), and `self.fdir` is
assigned only from the successful result. -/
def calcFlowDirection (flowdirOracle : ℕ → ℕ → Except PyErr ℕ)
    (demCond : ℕ) (st : EngineState) : EngineState × Except PyErr ℕ :=
  match st.grid with
  | none => (st, .error .attributeError)
  | some g =>
      match flowdirOracle g demCond with
      | .error e => (st, .error e)
      | .ok f => ({ st with fdir := some f }, .ok f)

/-- `PySheksWrapper.calculate_flow_accumulation`: guard on `self.fdir`,
then `self.grid.accumulation(...)`, and `self.acc` is assigned only from
the successful result. -/
def calcFlowAccumulation (accOracle : ℕ → ℕ → Except PyErr ℕ)
    (st : EngineState) : EngineState × Except PyErr ℕ :=
  match st.fdir with
  | none => (st, .error .valueError)
  | some f =>
      match st.grid with
      | none => (st, .error .attributeError)
      | some g =>
          match accOracle g f with
          | .error e => (st, .error e)
          | .ok a => ({ st with acc := some a }, .ok a)

/-! ### Helper lemmas for concrete instantiation -/

/-- A grid in which every interior valid cell already has a strictly lower
valid neighbor is a fixpoint of conditioning. -/
theorem condition_fix {h w : ℕ} (g : Grid h w) (hdeg : ¬ degenerate g)
    (hstrict : ∀ c, valid g c → ¬ boundary g c →
      ∃ n ∈ validNbrs g c, zval g n < zval g c) :
    condition g = .ok g := by
  unfold condition
  rw [if_neg hdeg, fillPits_fix g hstrict, fillDepressions_fix g hstrict,
    resolveFlats_fix g hstrict]

/-- Routing a cell with a single candidate follows it when it does not
ascend. -/
theorem route_singleton {h w : ℕ} (g : Grid h w) (c : Cell h w)
    (b : Dir × Cell h w × ℚ) (hv : valid g c) (hc : candidates g c = [b])
    (hnneg : ¬ (b.2.2 < 0)) : route g c = .flow b.1 := by
  unfold route
  rw [if_pos hv, hc]
  show (if b.2.2 < 0 then FlowDir.sink else FlowDir.flow b.1) = FlowDir.flow b.1
  rw [if_neg hnneg]

/-- The residual-pit predicate of claim C1, exactly as the spec states it:
some valid non-edge cell lies strictly below all of its (valid) 8
neighbors. -/
def hasResidualPit {h w : ℕ} (g : Grid h w) : Prop :=
  ∃ c, valid g c ∧ ¬ onEdge c ∧ validNbrs g c ≠ [] ∧
    ∀ n ∈ validNbrs g c, zval g c < zval g n

instance {h w : ℕ} (g : Grid h w) : Decidable (hasResidualPit g) := by
  unfold hasResidualPit; infer_instance

/-! ### Concrete instances for counterexamples and witnesses -/

/-- A 3×3 grid with a nodata hole at the corner and a pit at the center:
the center is 8-adjacent to the nodata cell, so it drains into the nodata
region and conditioning leaves it untouched. -/
def gC1 : Grid 3 3 := fun c =>
  if c = ((0 : Fin 3), (0 : Fin 3)) then none
  else if c = ((1 : Fin 3), (1 : Fin 3)) then some 0
  else some 1

/-- A 3×3 valley grid that conditioning leaves unchanged: the interior
cell already drains through its southern neighbor. -/
def gFix : Grid 3 3 := fun c =>
  if c = ((1 : Fin 3), (1 : Fin 3)) then some 5
  else if c = ((2 : Fin 3), (1 : Fin 3)) then some 4
  else some 6

/-- A 2×2 grid with two nodata cells, giving its top-left cell exactly one
routing candidate (its southern neighbor, downhill). -/
def gRoute : Grid 2 2 := fun c =>
  if c = ((0 : Fin 2), (0 : Fin 2)) then some 5
  else if c = ((1 : Fin 2), (0 : Fin 2)) then some 3
  else none

/-- A 2×2 direction grid draining to the bottom-right sink. -/
def dEx : DirGrid 2 2 := fun c =>
  if c = ((0 : Fin 2), (0 : Fin 2)) then .flow .SE
  else if c = ((0 : Fin 2), (1 : Fin 2)) then .flow .S
  else if c = ((1 : Fin 2), (0 : Fin 2)) then .flow .E
  else .sink

/-- The identity georeferencing transform. -/
def tId : AffineT := ⟨1, 0, 0, 0, 1, 0⟩

theorem gFix_condition : condition gFix = .ok gFix := by
  refine condition_fix gFix (by decide) ?_
  decide

theorem gC1_condition : condition gC1 = .ok gC1 := by
  refine condition_fix gC1 (by decide) ?_
  decide

theorem gRoute_condition : condition gRoute = .ok gRoute := by
  refine condition_fix gRoute (by decide) ?_
  decide

/-! ### Claim theorems -/

/-- C1, counterexample: the claim "no non-edge valid cell of a conditioned
grid lies strictly below the minimum elevation of its 8 neighbors" fails on
the concrete grid `gC1`: its center cell is 8-adjacent to a nodata cell, so
it drains into the nodata region, conditioning returns the grid unchanged,
and the center remains strictly below all of its valid neighbors. -/
theorem claim1_counterexample :
    condition gC1 = .ok gC1 ∧ hasResidualPit gC1 :=
  ⟨gC1_condition, by decide⟩

/-- C1, amended: for every grid produced by conditioning, no valid cell
that is neither on the raster edge nor 8-adjacent to a nodata cell lies
strictly below the minimum elevation of its 8 neighbors; equivalently every
such interior cell has a valid neighbor at most as high. -/
theorem claim1_no_interior_pit {h w : ℕ} (g g' : Grid h w)
    (hok : condition g = .ok g') :
    ∀ c, valid g' c → ¬ boundary g' c →
      ∃ n ∈ validNbrs g' c, zval g' n ≤ zval g' c := by
  intro c hv hb
  rcases condition_strict hok c hv hb with ⟨n, hn, hlt⟩
  exact ⟨n, hn, le_of_lt hlt⟩

/-- C1, witness: the amended theorem applied to the concrete valley grid
`gFix` at its interior cell. -/
theorem claim1_witness :
    ∃ n ∈ validNbrs gFix ((1 : Fin 3), (1 : Fin 3)),
      zval gFix n ≤ zval gFix ((1 : Fin 3), (1 : Fin 3)) :=
  claim1_no_interior_pit gFix gFix gFix_condition
    ((1 : Fin 3), (1 : Fin 3)) (by decide) (by decide)

/-- Supporting fact for the C1 amendment: on rasters without any nodata
cell — the grids the spec's fuzz property actually generates — the claim
holds exactly as originally stated, so the amendment only carves out the
nodata-adjacent case exhibited by the counterexample. -/
theorem condition_nopit_nodata_free {h w : ℕ} (g g' : Grid h w)
    (hall : ∀ c, valid g c) (hok : condition g = .ok g') :
    ¬ hasResidualPit g' := by
  rintro ⟨c, hv, hedge, _, habove⟩
  have hpat := condition_pattern hok
  have hb : ¬ boundary g' c := by
    rintro (he | ⟨t, _,ht⟩)
    · exact hedge he
    · exact ((valid_iff_of_pattern hpat t).mpr (hall t)) ht
  rcases condition_strict hok c hv hb with ⟨n, hn, hlt⟩
  exact absurd (habove n hn) (not_lt.mpr (le_of_lt hlt))

/-- C2: for every direction grid produced by routing a conditioned grid,
every cell with a defined direction targets an in-raster valid neighbor
whose elevation is at most the cell's own (non-ascending flow). -/
theorem claim2_route_nonascending {h w : ℕ} (g g' : Grid h w)
    (hok : condition g = .ok g') (c : Cell h w) (d : Dir)
    (hd : route g' c = .flow d) :
    ∃ t, shift c (dirOffset d) = some t ∧ valid g' t ∧
      zval g' t ≤ zval g' c :=
  route_nonascending g' c d hd

theorem gRoute_candidates :
    candidates gRoute ((0 : Fin 2), (0 : Fin 2)) =
      [(Dir.S, ((1 : Fin 2), (0 : Fin 2)),
        zval gRoute ((0 : Fin 2), (0 : Fin 2)) -
          zval gRoute ((1 : Fin 2), (0 : Fin 2)))] := rfl

theorem gRoute_flows_south :
    route gRoute ((0 : Fin 2), (0 : Fin 2)) = .flow Dir.S := by
  refine route_singleton gRoute ((0 : Fin 2), (0 : Fin 2))
    (Dir.S, ((1 : Fin 2), (0 : Fin 2)),
      zval gRoute ((0 : Fin 2), (0 : Fin 2)) -
        zval gRoute ((1 : Fin 2), (0 : Fin 2)))
    (by decide) gRoute_candidates ?_
  show ¬ ((5 : ℚ) - 3 < 0)
  norm_num

/-- C2, witness: the non-ascending-flow theorem applied to the concrete
grid `gRoute`, whose top-left cell routes south and downhill. -/
theorem claim2_witness :
    ∃ t, shift ((0 : Fin 2), (0 : Fin 2)) (dirOffset Dir.S) = some t ∧
      valid gRoute t ∧ zval gRoute t ≤ zval gRoute ((0 : Fin 2), (0 : Fin 2)) :=
  claim2_route_nonascending gRoute gRoute gRoute_condition
    ((0 : Fin 2), (0 : Fin 2)) Dir.S gRoute_flows_south

/-- C3: every accumulation grid produced from a direction grid gives each
graph cell a value of at least 1, equal to 1 plus the sum of the values of
the cells whose direction points directly into it. -/
theorem claim3_accumulation_recurrence {h w : ℕ} (D : DirGrid h w)
    (A : Cell h w → ℕ) (hok : accumulate D = .ok A) (c : Cell h w)
    (hv : validD D c) :
    1 ≤ A c ∧ A c = 1 + ∑ d ∈ preds D c, A d :=
  accumulate_recurrence hok c hv

/-- C3, witness: the recurrence applied to the concrete direction grid
`dEx` at its sink cell, which accumulates all four cells. -/
theorem claim3_witness :
    1 ≤ accIter dEx (fuel 2 2) ((1 : Fin 2), (1 : Fin 2)) ∧
      accIter dEx (fuel 2 2) ((1 : Fin 2), (1 : Fin 2)) =
        1 + ∑ d ∈ preds dEx ((1 : Fin 2), (1 : Fin 2)),
          accIter dEx (fuel 2 2) d :=
  claim3_accumulation_recurrence dEx (accIter dEx (fuel 2 2))
    (by decide) ((1 : Fin 2), (1 : Fin 2)) (by decide)

/-- C4: for every direction grid and pour coordinate whose snapped cell is
in bounds, the catchment mask returned by delineation marks the snapped
pour cell itself. -/
theorem claim4_catchment_contains_pour {h w : ℕ} (D : DirGrid h w)
    (T : AffineT) (x y : ℚ) (m : Cell h w → Bool) (pc : Cell h w)
    (hok : delineate D T x y = .ok (m, pc)) : m pc = true :=
  delineate_mask_contains_pour D T x y m pc hok

theorem nearestCell_id_origin : nearestCell tId 0 0 = some (0, 0) := by
  unfold nearestCell
  rw [if_neg (by norm_num [detA, tId])]
  have h1 : invCol tId 0 0 = 0 := by norm_num [invCol, detA, tId]
  have h2 : invRow tId 0 0 = 0 := by norm_num [invRow, detA, tId]
  rw [h1, h2, round_zero]

theorem delineate_dEx_origin :
    delineate dEx tId 0 0 =
      .ok (catchMask dEx ((0 : Fin 2), (0 : Fin 2)), ((0 : Fin 2), (0 : Fin 2))) := by
  unfold delineate
  rw [nearestCell_id_origin]
  show (if hin : _ then _ else _) = _
  rw [dif_pos (by decide)]
  rfl

/-- C4, witness: delineation of the concrete grid `dEx` from the origin
pour point marks the origin cell in its mask. -/
theorem claim4_witness :
    catchMask dEx ((0 : Fin 2), (0 : Fin 2)) ((0 : Fin 2), (0 : Fin 2)) = true :=
  claim4_catchment_contains_pour dEx tId 0 0
    (catchMask dEx ((0 : Fin 2), (0 : Fin 2))) ((0 : Fin 2), (0 : Fin 2))
    delineate_dEx_origin

/-- C5: every pour coordinate whose converted, rounded pixel index falls
outside the raster bounds makes delineation fail with
`PourPointOutOfBoundsError` and return no mask. -/
theorem claim5_pour_point_out_of_bounds {h w : ℕ} (D : DirGrid h w)
    (T : AffineT) (x y : ℚ) (ci ri : ℤ)
    (hnc : nearestCell T x y = some (ci, ri))
    (hout : ¬ (0 ≤ ri ∧ ri < (h : ℤ) ∧ 0 ≤ ci ∧ ci < (w : ℤ))) :
    delineate D T x y = .error .pourPointOutOfBounds :=
  delineate_out_of_bounds D T x y ci ri hnc hout

theorem nearestCell_id_far : nearestCell tId 5 7 = some (5, 7) := by
  unfold nearestCell
  rw [if_neg (by norm_num [detA, tId])]
  have h1 : invCol tId 5 7 = 5 := by norm_num [invCol, detA, tId]
  have h2 : invRow tId 5 7 = 7 := by norm_num [invRow, detA, tId]
  rw [h1, h2]
  norm_num [round_eq]

/-- C5, witness: the out-of-bounds theorem applied to the concrete grid
`dEx` and the coordinate (5, 7), which snaps far outside the 2×2 raster. -/
theorem claim5_witness :
    delineate dEx tId 5 7 = .error .pourPointOutOfBounds :=
  claim5_pour_point_out_of_bounds dEx tId 5 7 5 7 nearestCell_id_far
    (by decide)

/-- C6: whenever no shape passes the validity filter (value 1, valid
geometry, positive area), the vectorization step fails with the
`EmptyCatchmentError` tag (the source's `ValueError` raise sites) instead
of returning a geometry. -/
theorem claim6_empty_catchment (shapes : List Shape) (crs : String)
    (hnone : ∀ s ∈ shapes, ¬ (s.value = 1 ∧ s.isValidGeom = true ∧ 0 < s.area)) :
    assembleWatershed shapes crs = .error .emptyCatchment := by
  unfold assembleWatershed vectorizeFilter
  by_cases hs : shapes = []
  · rw [if_pos hs]
    rfl
  · rw [if_neg hs]
    have hfil : shapes.filter
        (fun s => s.value == 1 && s.isValidGeom && decide (0 < s.area)) = [] := by
      rw [List.filter_eq_nil_iff]
      intro s hsmem hpred
      have hns := hnone s hsmem
      simp only [Bool.and_eq_true, beq_iff_eq, decide_eq_true_eq] at hpred
      exact hns ⟨hpred.1.1, hpred.1.2, hpred.2⟩
    simp only [hfil, List.map_nil, if_pos]
    rfl

/-- C6, witness: a single shape of rasterized value 0 (raster background)
yields no valid polygon and the empty-catchment failure. -/
theorem claim6_witness :
    assembleWatershed [⟨[[(0, 0), (0, 1), (1, 1)]], 0, true, 1⟩] "EPSG:32722" =
      .error .emptyCatchment :=
  claim6_empty_catchment _ _ (by decide)

/-- C7 (code bug in the source): `get_watershed_stats` on a geometry in the
geographic CRS EPSG:4326 returns the raw degree-based sums under the metric
keys `area_m2` / `area_ha` / `area_km2` / `perimeter_m` / `perimeter_km`,
with the geographic CRS passed through — no reprojection is performed and
the returned record carries no warning of any kind, contradicting the
spec's requirement to reproject or flag `NonMetricUnitsWarning`. -/
theorem claim7_stats_raw_degree_units :
    (⟨"EPSG:4326", true⟩ : CRSInfo).isGeographic = true ∧
      getWatershedStats ⟨1, 4, (1, 1, 2, 2), ⟨"EPSG:4326", true⟩⟩ =
        { area_m2 := 1, area_ha := 1 / 10000, area_km2 := 1 / 1000000,
          perimeter_m := 4, perimeter_km := 4 / 1000,
          bounds := (1, 1, 2, 2), crs := ⟨"EPSG:4326", true⟩ } :=
  ⟨rfl, rfl⟩

/-- C8, counterexample: a `load_dem` call whose raster read fails leaves
the engine with `dem_path` already reassigned — the failed stage has
partially mutated the shared engine state, refuting the claim that every
failing stage performs no partial mutation. -/
theorem claim8_counterexample :
    (loadDem (fun _ => true) (fun _ => .error .pyshedsError)
        (fun _ => .error .pyshedsError) "dem.tif" initState).2 =
      Except.error PyErr.pyshedsError ∧
    (loadDem (fun _ => true) (fun _ => .error .pyshedsError)
        (fun _ => .error .pyshedsError) "dem.tif" initState).1 ≠ initState := by
  constructor
  · rfl
  · decide

/-- C8, amended: the non-loading pipeline stages (`preprocess_dem`,
`calculate_flow_direction`, `calculate_flow_accumulation`) leave the shared
engine state unchanged whenever they fail; only `load_dem` (and
`delineate_watershed`, which begins by calling it) mutates state before a
failure. -/
theorem claim8_no_mutation_on_failure
    (condOr : ℕ → Except PyErr ℕ) (fdOr accOr : ℕ → ℕ → Except PyErr ℕ)
    (dc : ℕ) (st : EngineState) (e₁ e₂ e₃ : PyErr) :
    ((preprocessDem condOr st).2 = .error e₁ → (preprocessDem condOr st).1 = st) ∧
    ((calcFlowDirection fdOr dc st).2 = .error e₂ →
      (calcFlowDirection fdOr dc st).1 = st) ∧
    ((calcFlowAccumulation accOr st).2 = .error e₃ →
      (calcFlowAccumulation accOr st).1 = st) := by
  refine ⟨?_, ?_, ?_⟩
  · intro _
    unfold preprocessDem
    rcases st.dem with _ | d <;> rfl
  · intro herr
    rcases hg : st.grid with _ | g
    · unfold calcFlowDirection
      rw [hg]
    · have hred : calcFlowDirection fdOr dc st =
          match fdOr g dc with
          | .error e => (st, .error e)
          | .ok f => ({ st with fdir := some f }, .ok f) := by
        unfold calcFlowDirection
        rw [hg]
      rw [hred] at herr ⊢
      rcases hfd : fdOr g dc with e | f
      · rfl
      · rw [hfd] at herr
        exact Except.noConfusion
          (show Except.ok f = Except.error e₂ from herr)
  · intro herr
    rcases hf : st.fdir with _ | f
    · unfold calcFlowAccumulation
      rw [hf]
    · rcases hg : st.grid with _ | g
      · have hred : calcFlowAccumulation accOr st =
            (st, .error .attributeError) := by
          unfold calcFlowAccumulation
          rw [hf, hg]
        rw [hred]
      · have hred : calcFlowAccumulation accOr st =
            match accOr g f with
            | .error e => (st, .error e)
            | .ok a => ({ st with acc := some a }, .ok a) := by
          unfold calcFlowAccumulation
          rw [hf, hg]
        rw [hred] at herr ⊢
        rcases hacc : accOr g f with e | a
        · rfl
        · rw [hacc] at herr
          exact Except.noConfusion
            (show Except.ok a = Except.error e₃ from herr)

/-- C8, witness: the amended theorem applied to the freshly initialised
engine, where all three guarded stages fail and leave the state intact. -/
theorem claim8_witness :
    (preprocessDem (fun _ => .error .pyshedsError) initState).1 = initState ∧
    (calcFlowDirection (fun _ _ => .error .pyshedsError) 0 initState).1 = initState ∧
    (calcFlowAccumulation (fun _ _ => .error .pyshedsError) initState).1 = initState :=
  ⟨(claim8_no_mutation_on_failure (fun _ => .error .pyshedsError)
      (fun _ _ => .error .pyshedsError) (fun _ _ => .error .pyshedsError)
      0 initState .valueError .attributeError .valueError).1 (by rfl),
    (claim8_no_mutation_on_failure (fun _ => .error .pyshedsError)
      (fun _ _ => .error .pyshedsError) (fun _ _ => .error .pyshedsError)
      0 initState .valueError .attributeError .valueError).2.1 (by rfl),
    (claim8_no_mutation_on_failure (fun _ => .error .pyshedsError)
      (fun _ _ => .error .pyshedsError) (fun _ _ => .error .pyshedsError)
      0 initState .valueError .attributeError .valueError).2.2 (by rfl)⟩

/-- C9: conditioning is idempotent — conditioning a grid that is already
the output of conditioning returns that grid unchanged. -/
theorem claim9_condition_idempotent {h w : ℕ} (g g' : Grid h w)
    (hok : condition g = .ok g') : condition g' = .ok g' :=
  condition_idempotent hok

/-- C9, witness: the idempotence theorem applied to the concrete valley
grid `gFix`, a conditioning output of itself. -/
theorem claim9_witness : condition gFix = .ok gFix :=
  claim9_condition_idempotent gFix gFix gFix_condition

/-- C10: every successful delineation result is a single-feature
GeoDataFrame with `id = 1`, the raster's CRS, and as geometry the unary
union of all valid polygons — disjoint parts are merged, not dropped and
not returned as separate features. -/
theorem claim10_single_feature (shapes : List Shape) (crs : String)
    (gdf : GeoDataFrame) (hok : assembleWatershed shapes crs = .ok gdf) :
    ∃ ps, vectorizeFilter shapes = .ok ps ∧
      gdf.rows = [⟨1, unaryUnion ps⟩] ∧ gdf.crs = crs := by
  unfold assembleWatershed at hok
  rcases hvf : vectorizeFilter shapes with e | ps
  · rw [hvf] at hok
    cases hok
  · rw [hvf] at hok
    have hgdf : gdf = ⟨[⟨1, finalGeom ps⟩], crs⟩ := by
      have : Except.ok (ε := Err) (⟨[⟨1, finalGeom ps⟩], crs⟩ : GeoDataFrame) =
          .ok gdf := hok
      exact (Except.ok.inj this).symm
    refine ⟨ps, rfl, ?_, ?_⟩
    · rw [hgdf, finalGeom_eq_unaryUnion]
    · rw [hgdf]

/-- C10, witness: two disjoint valid polygons are merged into the single
feature's geometry. -/
theorem claim10_witness :
    ∃ ps, vectorizeFilter
        [⟨[[(0, 0), (0, 1), (1, 1)]], 1, true, 1⟩,
          ⟨[[(5, 5), (5, 6), (6, 6)]], 1, true, 1⟩] = .ok ps ∧
      (⟨[⟨1, [[[(0, 0), (0, 1), (1, 1)]], [[(5, 5), (5, 6), (6, 6)]]]⟩],
        "EPSG:32722"⟩ : GeoDataFrame).rows = [⟨1, unaryUnion ps⟩] ∧
      (⟨[⟨1, [[[(0, 0), (0, 1), (1, 1)]], [[(5, 5), (5, 6), (6, 6)]]]⟩],
        "EPSG:32722"⟩ : GeoDataFrame).crs = "EPSG:32722" :=
  claim10_single_feature
    [⟨[[(0, 0), (0, 1), (1, 1)]], 1, true, 1⟩,
      ⟨[[(5, 5), (5, 6), (6, 6)]], 1, true, 1⟩] "EPSG:32722"
    ⟨[⟨1, [[[(0, 0), (0, 1), (1, 1)]], [[(5, 5), (5, 6), (6, 6)]]]⟩],
      "EPSG:32722"⟩ (by decide)

end HydroAI
